import Mathlib

/-!
Verification of the escapegoat crate: a fixed-capacity ordered map (SgMap) and
set (SgSet) backed by an arena-allocated scapegoat tree.

The repository sources available are src/src/map_types.rs (entry API, range
iterators, the mutable range iterator RangeMut), the set API test-suite
(src/tests/test_set_api.rs) and the differential fuzz harness
(src/fuzz/fuzz_targets/sg_map.rs).  The tree engine itself (crate::tree,
crate::map, crate::set) is not among the provided sources, so those parts are
modelled from the specification: the tree is a binary search tree whose
in-order entry sequence is strictly sorted by key, with capacity-checked
mutation, flatten-and-rebuild rebalancing, and iterators that traverse entries
in ascending key order.  Definitions translated from map_types.rs say so in
their doc comments; definitions for the missing engine code carry doc comments
starting with: Modelled from the spec.
-/

set_option linter.unusedSectionVars false

namespace Escapegoat

/-- Modelled from the spec: the single error value surfaced by all fallible
mutators that may fill the arena (crate::SgError, source not in src/). -/
inductive SgError where
  | stackCapacityExceeded
deriving DecidableEq, Repr

/-- One endpoint of a range specification, mirroring core::ops::Bound. -/
inductive SgBound (K : Type) where
  | unbounded
  | included (k : K)
  | excluded (k : K)
deriving DecidableEq, Repr

/-- A range-bounds pair, the shallow embedding of a RangeBounds value:
a lower bound and an upper bound. -/
structure SgBounds (K : Type) where
  lo : SgBound K
  hi : SgBound K
deriving DecidableEq, Repr

variable {K V : Type} [LinearOrder K]

/-- Lower-endpoint test of core::ops::RangeBounds::contains: does the key sit
at or above the lower bound. -/
def SgBound.lowerOk : SgBound K → K → Bool
  | .unbounded, _ => true
  | .included b, k => decide (b ≤ k)
  | .excluded b, k => decide (b < k)

/-- Upper-endpoint test of core::ops::RangeBounds::contains: does the key sit
at or below the upper bound. -/
def SgBound.upperOk : SgBound K → K → Bool
  | .unbounded, _ => true
  | .included b, k => decide (k ≤ b)
  | .excluded b, k => decide (k < b)

/-- core::ops::RangeBounds::contains: both endpoint tests pass. -/
def SgBounds.contains (r : SgBounds K) (k : K) : Bool :=
  r.lo.lowerOk k && r.hi.upperOk k

theorem SgBound.lowerOk_mono {b : SgBound K} {j k : K} (h : j ≤ k)
    (hj : b.lowerOk j = true) : b.lowerOk k = true := by
  cases b with
  | unbounded => rfl
  | included x => simp only [lowerOk, decide_eq_true_eq] at *; exact le_trans hj h
  | excluded x => simp only [lowerOk, decide_eq_true_eq] at *; exact lt_of_lt_of_le hj h

theorem SgBound.upperOk_anti {b : SgBound K} {j k : K} (h : j ≤ k)
    (hk : b.upperOk k = true) : b.upperOk j = true := by
  cases b with
  | unbounded => rfl
  | included x => simp only [upperOk, decide_eq_true_eq] at *; exact le_trans h hk
  | excluded x => simp only [upperOk, decide_eq_true_eq] at *; exact lt_of_le_of_lt h hk

-- Sorted association lists -------------------------------------------------

/-- The key order on entries: strictly ascending keys. -/
def entLT (a b : K × V) : Prop := a.1 < b.1

/-- A list of entries is key-sorted when its keys are strictly ascending;
this is the in-order invariant of the binary search tree. -/
def KSorted (l : List (K × V)) : Prop := l.Pairwise entLT

instance : DecidableRel (entLT (K := K) (V := V)) :=
  fun a b => inferInstanceAs (Decidable (a.1 < b.1))

instance (l : List (K × V)) : Decidable (KSorted l) :=
  decidable_of_iff (l.Pairwise entLT) Iff.rfl

theorem KSorted.nil : KSorted ([] : List (K × V)) := List.Pairwise.nil

theorem ksorted_cons {e : K × V} {l : List (K × V)} :
    KSorted (e :: l) ↔ (∀ x ∈ l, e.1 < x.1) ∧ KSorted l := by
  unfold KSorted
  exact List.pairwise_cons

theorem ksorted_append {a b : List (K × V)} :
    KSorted (a ++ b) ↔
      KSorted a ∧ KSorted b ∧ ∀ x ∈ a, ∀ y ∈ b, x.1 < y.1 := by
  unfold KSorted
  exact List.pairwise_append

theorem KSorted.sub_left {a b : List (K × V)} (h : KSorted (a ++ b)) :
    KSorted a := (ksorted_append.mp h).1

theorem KSorted.sub_right {a b : List (K × V)} (h : KSorted (a ++ b)) :
    KSorted b := (ksorted_append.mp h).2.1

theorem KSorted.cross {a b : List (K × V)} (h : KSorted (a ++ b)) :
    ∀ x ∈ a, ∀ y ∈ b, x.1 < y.1 := (ksorted_append.mp h).2.2

-- The tree ------------------------------------------------------------------

/-- Modelled from the spec: the arena-held node graph of the scapegoat tree
(crate::tree, source not in src/).  The arena simulates a pointer graph by
integer indices; its shallow embedding is the pointer graph itself: a binary
tree of key-value entries. -/
inductive SgTree (K V : Type) where
  | leaf
  | node (l : SgTree K V) (k : K) (v : V) (r : SgTree K V)
deriving DecidableEq, Repr

namespace SgTree

/-- In-order entry sequence of the tree: what the iterators of the crate
yield, in ascending key order when the BST invariant holds. -/
def toList : SgTree K V → List (K × V)
  | .leaf => []
  | .node l k v r => toList l ++ (k, v) :: toList r

/-- Number of entries stored. -/
def size (t : SgTree K V) : Nat := t.toList.length

/-- Modelled from the spec: lookup descends from the root comparing keys
(crate::tree find, source not in src/). -/
def find (k : K) : SgTree K V → Option V
  | .leaf => none
  | .node l k' v' r =>
    if k < k' then find k l
    else if k' < k then find k r
    else some v'

/-- Modelled from the spec: the recursive insert walk (crate::tree insert,
source not in src/).  Returns the new tree, the replaced value when the key
was already present, and the depth at which the walk stopped (used by the
scapegoat over-depth test). -/
def insertGo (k : K) (v : V) : SgTree K V → SgTree K V × Option V × Nat
  | .leaf => (.node .leaf k v .leaf, none, 0)
  | .node l k' v' r =>
    if k < k' then
      let (l', old, d) := insertGo k v l
      (.node l' k' v' r, old, d + 1)
    else if k' < k then
      let (r', old, d) := insertGo k v r
      (.node l k' v' r', old, d + 1)
    else
      (.node l k v r, some v', 0)

/-- Modelled from the spec: remove and return the leftmost (minimum) entry
(used by the two-children deletion splice and by pop_first). -/
def delMin : SgTree K V → Option ((K × V) × SgTree K V)
  | .leaf => none
  | .node l k v r =>
    match delMin l with
    | none => some ((k, v), r)
    | some (e, l') => some (e, .node l' k v r)

/-- Modelled from the spec: remove and return the rightmost (maximum) entry
(used by pop_last). -/
def delMax : SgTree K V → Option ((K × V) × SgTree K V)
  | .leaf => none
  | .node l k v r =>
    match delMax r with
    | none => some ((k, v), l)
    | some (e, r') => some (e, .node l k v r')

/-- Modelled from the spec: the standard BST deletion splice
(crate::tree remove, source not in src/): zero or one child is replaced by
that child; two children are replaced by the in-order successor of the node,
the leftmost entry of the right subtree. -/
def removeGo (k : K) : SgTree K V → Option ((K × V) × SgTree K V)
  | .leaf => none
  | .node l k' v' r =>
    if k < k' then
      (removeGo k l).map (fun p => (p.1, .node p.2 k' v' r))
    else if k' < k then
      (removeGo k r).map (fun p => (p.1, .node l k' v' p.2))
    else
      some ((k', v'),
        match delMin r with
        | none => l
        | some (s, r') => .node l s.1 s.2 r')

/-- Translated from src/src/map_types.rs OccupiedEntry::insert: replace the
value stored at the entry's node (located here by its key, the shallow stand-in
for the arena node index) with a new value via mem::replace, returning the old
value.  The walk to the node is the lookup descent. -/
def replaceVal (k : K) (v : V) : SgTree K V → Option V × SgTree K V
  | .leaf => (none, .leaf)
  | .node l k' v' r =>
    if k < k' then
      let (old, l') := replaceVal k v l
      (old, .node l' k' v' r)
    else if k' < k then
      let (old, r') := replaceVal k v r
      (old, .node l k' v' r')
    else
      (some v', .node l k v r)

/-- Modelled from the spec: sub-range traversal (crate::map range building the
node list handed to map_types::Range, source not in src/): walk down from the
root, skipping whole subtrees that lie entirely below the lower bound or
entirely above the upper bound, collecting in-range entries in order. -/
def rangeGo (r : SgBounds K) : SgTree K V → List (K × V)
  | .leaf => []
  | .node l k v rt =>
    if ¬ r.lo.lowerOk k then rangeGo r rt
    else if ¬ r.hi.upperOk k then rangeGo r l
    else rangeGo r l ++ (k, v) :: rangeGo r rt

end SgTree

-- Balanced rebuild ----------------------------------------------------------

/-- Modelled from the spec: flatten-and-rebuild (crate::tree rebuild, source
not in src/): the middle entry of the sorted projection becomes the subtree
root, the two halves are rebuilt recursively.  Fuel-indexed so that the
recursion is structural; the wrapper below supplies sufficient fuel. -/
def buildBalancedF : Nat → List (K × V) → SgTree K V
  | 0, _ => .leaf
  | fuel + 1, xs =>
    match xs.get? (xs.length / 2) with
    | none => .leaf
    | some e =>
      .node (buildBalancedF fuel (xs.take (xs.length / 2))) e.1 e.2
        (buildBalancedF fuel (xs.drop (xs.length / 2 + 1)))

/-- Modelled from the spec: rebuild a subtree from its sorted in-order entry
projection, producing a weight-balanced tree with the same entry sequence. -/
def buildBalanced (xs : List (K × V)) : SgTree K V := buildBalancedF xs.length xs

theorem buildBalancedF_toList (fuel : Nat) :
    ∀ xs : List (K × V), xs.length ≤ fuel → (buildBalancedF fuel xs).toList = xs := by
  induction fuel with
  | zero =>
    intro xs h
    have : xs = [] := List.length_eq_zero.mp (Nat.le_zero.mp h)
    subst this; rfl
  | succ fuel ih =>
    intro xs h
    unfold buildBalancedF
    split
    · rename_i hxs
      have hle : xs.length ≤ xs.length / 2 := List.get?_eq_none.mp hxs
      have h0 : xs.length = 0 := by
        have := Nat.div_le_self xs.length 2
        omega
      rw [List.length_eq_zero.mp h0]
      rfl
    · rename_i e hxs
      obtain ⟨hm, hget⟩ := List.get?_eq_some.mp hxs
      have h1 : (xs.take (xs.length / 2)).length ≤ fuel := by
        rw [List.length_take]
        omega
      have h2 : (xs.drop (xs.length / 2 + 1)).length ≤ fuel := by
        rw [List.length_drop]
        omega
      have hdrop : xs.drop (xs.length / 2) = e :: xs.drop (xs.length / 2 + 1) := by
        rw [List.drop_eq_getElem_cons hm]
        simp [← hget, List.get_eq_getElem]
      simp only [SgTree.toList, ih _ h1, ih _ h2]
      rw [show ((e.1, e.2) : K × V) = e from rfl, ← hdrop, List.take_append_drop]

/-- The rebuild preserves the in-order entry sequence. -/
theorem buildBalanced_toList (xs : List (K × V)) :
    (buildBalanced xs).toList = xs :=
  buildBalancedF_toList xs.length xs le_rfl

-- Reference ordered-map model -----------------------------------------------

/- The reference ordered map used for the differential-equivalence claim:
a key-sorted association list (the canonical model of BTreeMap). -/
namespace ListMap

/-- Reference lookup: first entry with the given key. -/
def get (k : K) : List (K × V) → Option V
  | [] => none
  | e :: t => if e.1 = k then some e.2 else get k t

/-- Reference insert into a key-sorted list: returns the new list and the
replaced value when the key was present. -/
def insert (k : K) (v : V) : List (K × V) → List (K × V) × Option V
  | [] => ([(k, v)], none)
  | e :: t =>
    if k < e.1 then ((k, v) :: e :: t, none)
    else if e.1 < k then
      let (t', old) := insert k v t
      (e :: t', old)
    else ((k, v) :: t, some e.2)

/-- Reference removal: removes the first entry with the given key, returning
the removed entry and the remaining list. -/
def remove (k : K) : List (K × V) → Option ((K × V) × List (K × V))
  | [] => none
  | e :: t =>
    if e.1 = k then some (e, t)
    else (remove k t).map (fun p => (p.1, e :: p.2))

/-- Reference value update: replaces the value of the first entry with the
given key, returning the old value. -/
def setVal (k : K) (v : V) : List (K × V) → Option V × List (K × V)
  | [] => (none, [])
  | e :: t =>
    if e.1 = k then (some e.2, (k, v) :: t)
    else
      let (old, t') := setVal k v t
      (old, e :: t')

theorem get_append (k : K) (a b : List (K × V)) :
    get k (a ++ b) = match get k a with
      | some v => some v
      | none => get k b := by
  induction a with
  | nil => simp [get]
  | cons e t ih =>
    by_cases he : e.1 = k <;> simp [get, he, ih]

theorem get_eq_none_of_keys_ne {k : K} {a : List (K × V)}
    (h : ∀ e ∈ a, e.1 ≠ k) : get k a = none := by
  induction a with
  | nil => rfl
  | cons e t ih =>
    simp only [get, if_neg (h e (by simp))]
    exact ih fun x hx => h x (by simp [hx])

theorem insert_append_right {k : K} (v : V) {a : List (K × V)} (b : List (K × V))
    (h : ∀ e ∈ a, e.1 < k) :
    insert k v (a ++ b) = (a ++ (insert k v b).1, (insert k v b).2) := by
  induction a with
  | nil => simp
  | cons e t ih =>
    have hek : e.1 < k := h e (by simp)
    simp only [List.cons_append, insert, if_neg (asymm hek), if_pos hek,
      List.append_eq, ih (fun x hx => h x (by simp [hx]))]

theorem insert_append_left {k : K} (v : V) {a b : List (K × V)}
    (h : ∀ e ∈ b, k < e.1) :
    insert k v (a ++ b) = ((insert k v a).1 ++ b, (insert k v a).2) := by
  induction a with
  | nil =>
    cases b with
    | nil => simp [insert]
    | cons e t =>
      have : k < e.1 := h e (by simp)
      simp [insert, this]
  | cons e t ih =>
    by_cases h1 : k < e.1
    · simp [insert, h1]
    · by_cases h2 : e.1 < k
      · simp [insert, h1, h2, ih]
      · simp [insert, h1, h2]

theorem remove_append (k : K) (a b : List (K × V)) :
    remove k (a ++ b) = match remove k a with
      | some p => some (p.1, p.2 ++ b)
      | none => (remove k b).map (fun p => (p.1, a ++ p.2)) := by
  induction a with
  | nil => simp [remove]
  | cons e t ih =>
    by_cases he : e.1 = k
    · simp [remove, he]
    · cases hrt : remove k t with
      | none =>
        simp only [List.cons_append, remove, if_neg he, List.append_eq, ih, hrt]
        cases remove k b <;> simp
      | some p =>
        simp only [List.cons_append, remove, if_neg he, List.append_eq, ih, hrt,
          Option.map_some]
        simp

theorem remove_eq_none_of_keys_ne {k : K} {a : List (K × V)}
    (h : ∀ e ∈ a, e.1 ≠ k) : remove k a = none := by
  induction a with
  | nil => rfl
  | cons e t ih =>
    simp only [remove, if_neg (h e (by simp))]
    rw [ih fun x hx => h x (by simp [hx])]
    rfl

theorem setVal_append (k : K) (v : V) (a b : List (K × V)) :
    setVal k v (a ++ b) =
      if (get k a).isSome then ((setVal k v a).1, (setVal k v a).2 ++ b)
      else ((setVal k v b).1, a ++ (setVal k v b).2) := by
  induction a with
  | nil => simp [setVal, get]
  | cons e t ih =>
    by_cases he : e.1 = k
    · simp [setVal, get, he]
    · simp only [List.cons_append, setVal, if_neg he, get, List.append_eq, ih]
      by_cases hg : (get k t).isSome <;> simp [hg]

end ListMap

-- Sorted-list side lemmas ----------------------------------------------------

theorem ksorted_node_parts {A B : List (K × V)} {k' : K} {v' : V}
    (h : KSorted (A ++ (k', v') :: B)) :
    (∀ e ∈ A, e.1 < k') ∧ (∀ e ∈ B, k' < e.1) ∧ KSorted A ∧
      KSorted B ∧ (∀ e ∈ A, ∀ f ∈ B, e.1 < f.1) := by
  obtain ⟨hA, hCB, hcross⟩ := ksorted_append.mp h
  obtain ⟨hhead, hB⟩ := ksorted_cons.mp hCB
  refine ⟨fun e he => hcross e he (k', v') (by simp), hhead, hA, hB, ?_⟩
  exact fun e he f hf => hcross e he f (by simp [hf])

theorem ListMap.mem_insert {k : K} {v : V} {l : List (K × V)} {x : K × V}
    (h : x ∈ (ListMap.insert k v l).1) : x = (k, v) ∨ x ∈ l := by
  induction l with
  | nil => simpa [ListMap.insert] using h
  | cons e t ih =>
    by_cases h1 : k < e.1
    · simp only [ListMap.insert, if_pos h1, List.mem_cons] at h
      rcases h with h | h | h
      · exact Or.inl h
      · exact Or.inr (by simp [h])
      · exact Or.inr (by simp [h])
    · by_cases h2 : e.1 < k
      · simp only [ListMap.insert, if_neg h1, if_pos h2, List.mem_cons] at h
        rcases h with h | h
        · exact Or.inr (by simp [h])
        · rcases ih h with h | h
          · exact Or.inl h
          · exact Or.inr (by simp [h])
      · simp only [ListMap.insert, if_neg h1, if_neg h2, List.mem_cons] at h
        rcases h with h | h
        · exact Or.inl h
        · exact Or.inr (by simp [h])

theorem ListMap.insert_ksorted {k : K} {v : V} {l : List (K × V)}
    (h : KSorted l) : KSorted (ListMap.insert k v l).1 := by
  induction l with
  | nil => simp [ListMap.insert, KSorted]
  | cons e t ih =>
    obtain ⟨hhead, htail⟩ := ksorted_cons.mp h
    by_cases h1 : k < e.1
    · simp only [ListMap.insert, if_pos h1]
      refine ksorted_cons.mpr ⟨?_, h⟩
      intro x hx
      rcases List.mem_cons.mp hx with hx | hx
      · simp [hx, h1]
      · exact lt_trans h1 (hhead x hx)
    · by_cases h2 : e.1 < k
      · simp only [ListMap.insert, if_neg h1, if_pos h2]
        refine ksorted_cons.mpr ⟨?_, ih htail⟩
        intro x hx
        rcases ListMap.mem_insert hx with hx | hx
        · simp [hx, h2]
        · exact hhead x hx
      · have hek : e.1 = k := le_antisymm (not_lt.mp h1) (not_lt.mp h2)
        simp only [ListMap.insert, if_neg h1, if_neg h2]
        refine ksorted_cons.mpr ⟨?_, htail⟩
        intro x hx
        simpa [← hek] using hhead x hx

theorem ListMap.insert_old_eq_get {k : K} {v : V} {l : List (K × V)}
    (h : KSorted l) : (ListMap.insert k v l).2 = ListMap.get k l := by
  induction l with
  | nil => rfl
  | cons e t ih =>
    obtain ⟨hhead, htail⟩ := ksorted_cons.mp h
    by_cases h1 : k < e.1
    · have hne : ¬ e.1 = k := fun hc => absurd (hc ▸ h1) (lt_irrefl k)
      simp only [ListMap.insert, if_pos h1, ListMap.get, if_neg hne]
      exact (ListMap.get_eq_none_of_keys_ne (fun x hx => ne_of_gt (lt_trans h1 (hhead x hx)))).symm
    · by_cases h2 : e.1 < k
      · have hne : ¬ e.1 = k := ne_of_lt h2
        simp only [ListMap.insert, if_neg h1, if_pos h2, ListMap.get, if_neg hne]
        exact ih htail
      · have hek : e.1 = k := le_antisymm (not_lt.mp h1) (not_lt.mp h2)
        simp [ListMap.insert, if_neg h1, if_neg h2, ListMap.get, hek]

theorem ListMap.insert_length (k : K) (v : V) (l : List (K × V)) :
    (ListMap.insert k v l).1.length =
      l.length + (if (ListMap.insert k v l).2.isSome then 0 else 1) := by
  induction l with
  | nil => rfl
  | cons e t ih =>
    by_cases h1 : k < e.1
    · simp [ListMap.insert, if_pos h1]
    · by_cases h2 : e.1 < k
      · simp only [ListMap.insert, if_neg h1, if_pos h2, List.length_cons, ih]
        by_cases ho : (ListMap.insert k v t).2.isSome <;> simp [ho]
      · simp [ListMap.insert, if_neg h1, if_neg h2]

theorem ListMap.remove_sublist {k : K} {l t' : List (K × V)} {e : K × V}
    (h : ListMap.remove k l = some (e, t')) : t'.Sublist l := by
  induction l generalizing t' with
  | nil => cases h
  | cons f t ih =>
    by_cases hf : f.1 = k
    · simp only [ListMap.remove, if_pos hf, Option.some_inj] at h
      rw [Prod.mk.injEq] at h
      rw [← h.2]
      exact List.sublist_cons_self f t
    · simp only [ListMap.remove, if_neg hf] at h
      cases hrt : ListMap.remove k t with
      | none => rw [hrt] at h; cases h
      | some p =>
        rw [hrt] at h
        simp only [Option.map_some', Option.some_inj] at h
        rcases p with ⟨e0, t0⟩
        rw [Prod.mk.injEq] at h
        have he0 : e0 = e := h.1
        subst he0
        have := ih hrt
        rw [← h.2]
        exact List.Sublist.cons₂ f this

theorem ListMap.remove_ksorted {k : K} {l t' : List (K × V)} {e : K × V}
    (hs : KSorted l) (h : ListMap.remove k l = some (e, t')) : KSorted t' :=
  List.Pairwise.sublist (ListMap.remove_sublist h) hs

theorem ListMap.remove_length {k : K} {l t' : List (K × V)} {e : K × V}
    (h : ListMap.remove k l = some (e, t')) : l.length = t'.length + 1 := by
  induction l generalizing t' with
  | nil => cases h
  | cons f t ih =>
    by_cases hf : f.1 = k
    · simp only [ListMap.remove, if_pos hf, Option.some_inj] at h
      rw [Prod.mk.injEq] at h
      rw [← h.2]
      simp
    · simp only [ListMap.remove, if_neg hf] at h
      cases hrt : ListMap.remove k t with
      | none => rw [hrt] at h; cases h
      | some p =>
        rw [hrt] at h
        simp only [Option.map_some', Option.some_inj] at h
        rcases p with ⟨e0, t0⟩
        rw [Prod.mk.injEq] at h
        have he0 : e0 = e := h.1
        subst he0
        have := ih hrt
        rw [← h.2]
        simp [this]

theorem ListMap.setVal_keys (k : K) (v : V) (l : List (K × V)) :
    (ListMap.setVal k v l).2.map Prod.fst = l.map Prod.fst := by
  induction l with
  | nil => rfl
  | cons e t ih =>
    by_cases he : e.1 = k
    · simp [ListMap.setVal, if_pos he, he]
    · simp [ListMap.setVal, if_neg he, ih]

-- Tree to list correspondence ------------------------------------------------

namespace SgTree

theorem toList_node (l : SgTree K V) (k : K) (v : V) (r : SgTree K V) :
    (SgTree.node l k v r).toList = l.toList ++ (k, v) :: r.toList := rfl

theorem find_eq_get {t : SgTree K V} (hs : KSorted t.toList) (k : K) :
    t.find k = ListMap.get k t.toList := by
  induction t with
  | leaf => rfl
  | node l k' v' r ihl ihr =>
    obtain ⟨hA, hB, hsA, hsB, _⟩ := ksorted_node_parts (A := l.toList) (B := r.toList)
      (by simpa [toList_node] using hs)
    rw [toList_node, ListMap.get_append]
    by_cases h1 : k < k'
    · have hC : ListMap.get k ((k', v') :: r.toList) = none := by
        apply ListMap.get_eq_none_of_keys_ne
        intro e he
        rcases List.mem_cons.mp he with he | he
        · subst he; exact ne_of_gt h1
        · exact ne_of_gt (lt_trans h1 (hB e he))
      rw [find, if_pos h1, ihl hsA, hC]
      cases ListMap.get k l.toList <;> simp
    · by_cases h2 : k' < k
      · have hAnone : ListMap.get k l.toList = none :=
          ListMap.get_eq_none_of_keys_ne (fun e he => ne_of_lt (lt_trans (hA e he) h2))
        have hne : ¬ k' = k := ne_of_lt h2
        rw [find, if_neg h1, if_pos h2, ihr hsB, hAnone, ListMap.get, if_neg hne]
      · have hek : k' = k := le_antisymm (not_lt.mp h1) (not_lt.mp h2)
        have hAnone : ListMap.get k l.toList = none :=
          ListMap.get_eq_none_of_keys_ne (fun e he => ne_of_lt (hek ▸ hA e he))
        rw [find, if_neg h1, if_neg h2, hAnone, ListMap.get, if_pos hek]

theorem insertGo_spec {t : SgTree K V} (hs : KSorted t.toList) (k : K) (v : V) :
    ((insertGo k v t).1.toList, (insertGo k v t).2.1) = ListMap.insert k v t.toList := by
  induction t with
  | leaf => rfl
  | node l k' v' r ihl ihr =>
    obtain ⟨hA, hB, hsA, hsB, _⟩ := ksorted_node_parts (A := l.toList) (B := r.toList)
      (by simpa [toList_node] using hs)
    by_cases h1 : k < k'
    · have hins := ListMap.insert_append_left (a := l.toList)
        (b := (k', v') :: r.toList) v (by
          intro e he
          rcases List.mem_cons.mp he with he | he
          · subst he; exact h1
          · exact lt_trans h1 (hB e he))
      rw [toList_node, hins]
      have := ihl hsA
      simp only [insertGo, if_pos h1, toList_node]
      rw [Prod.ext_iff] at this ⊢
      obtain ⟨t1, t2⟩ := this
      constructor
      · simp only [← t1]
      · simpa using t2
    · by_cases h2 : k' < k
      · have hreshape : l.toList ++ (k', v') :: r.toList
            = (l.toList ++ [(k', v')]) ++ r.toList := by simp
        have hins := ListMap.insert_append_right (a := l.toList ++ [(k', v')])
          (b := r.toList) v (by
            intro e he
            rcases List.mem_append.mp he with he | he
            · exact lt_trans (hA e he) h2
            · simp only [List.mem_singleton] at he
              subst he
              exact h2)
        rw [toList_node, hreshape, hins]
        have := ihr hsB
        simp only [insertGo, if_neg h1, if_pos h2, toList_node]
        rw [Prod.ext_iff] at this ⊢
        obtain ⟨t1, t2⟩ := this
        constructor
        · simp only [← t1]
          simp
        · simpa using t2
      · have hek : k' = k := le_antisymm (not_lt.mp h1) (not_lt.mp h2)
        have hins := ListMap.insert_append_right (a := l.toList)
          (b := (k', v') :: r.toList) v (fun e he => hek ▸ hA e he)
        rw [toList_node, hins]
        have hhead : ListMap.insert k v ((k', v') :: r.toList)
            = ((k, v) :: r.toList, some v') := by
          rw [ListMap.insert, if_neg (by rw [hek]; exact lt_irrefl k),
            if_neg (by rw [hek]; exact lt_irrefl k)]
        rw [hhead]
        simp [insertGo, if_neg h1, if_neg h2, toList_node]

theorem delMin_spec (t : SgTree K V) :
    match t.delMin with
    | none => t.toList = []
    | some (e, t2) => t.toList = e :: t2.toList := by
  induction t with
  | leaf => rfl
  | node l k v r ihl ihr =>
    cases hdl : l.delMin with
    | none =>
      simp only [hdl] at ihl
      simp [delMin, hdl, toList_node, ihl]
    | some p =>
      rcases p with ⟨e, l2⟩
      simp only [hdl] at ihl
      simp [delMin, hdl, toList_node, ihl]

theorem delMax_spec (t : SgTree K V) :
    match t.delMax with
    | none => t.toList = []
    | some (e, t2) => t.toList = t2.toList ++ [e] := by
  induction t with
  | leaf => rfl
  | node l k v r ihl ihr =>
    cases hdr : r.delMax with
    | none =>
      simp only [hdr] at ihr
      simp [delMax, hdr, toList_node, ihr]
    | some p =>
      rcases p with ⟨e, r2⟩
      simp only [hdr] at ihr
      simp [delMax, hdr, toList_node, ihr]

theorem removeGo_spec {t : SgTree K V} (hs : KSorted t.toList) (k : K) :
    ListMap.remove k t.toList = (t.removeGo k).map (fun p => (p.1, p.2.toList)) := by
  induction t with
  | leaf => rfl
  | node l k' v' r ihl ihr =>
    obtain ⟨hA, hB, hsA, hsB, _⟩ := ksorted_node_parts (A := l.toList) (B := r.toList)
      (by simpa [toList_node] using hs)
    rw [toList_node, ListMap.remove_append]
    by_cases h1 : k < k'
    · rw [ihl hsA]
      simp only [removeGo, if_pos h1]
      cases l.removeGo k with
      | none =>
        have : ListMap.remove k ((k', v') :: r.toList) = none := by
          apply ListMap.remove_eq_none_of_keys_ne
          intro e he
          rcases List.mem_cons.mp he with he | he
          · subst he; exact ne_of_gt h1
          · exact ne_of_gt (lt_trans h1 (hB e he))
        simp [this]
      | some p => simp [toList_node]
    · by_cases h2 : k' < k
      · have hAnone : ListMap.remove k l.toList = none :=
          ListMap.remove_eq_none_of_keys_ne
            (fun e he => ne_of_lt (lt_trans (hA e he) h2))
        rw [hAnone]
        have hne : ¬ k' = k := ne_of_lt h2
        simp only [removeGo, if_neg h1, if_pos h2]
        rw [ListMap.remove, if_neg hne, ihr hsB]
        cases r.removeGo k with
        | none => simp
        | some p => simp [toList_node]
      · have hek : k' = k := le_antisymm (not_lt.mp h1) (not_lt.mp h2)
        have hAnone : ListMap.remove k l.toList = none :=
          ListMap.remove_eq_none_of_keys_ne (fun e he => ne_of_lt (hek ▸ hA e he))
        rw [hAnone]
        simp only [removeGo, if_neg h1, if_neg h2]
        rw [ListMap.remove, if_pos hek]
        have hdm := delMin_spec r
        cases hdr : r.delMin with
        | none =>
          rw [hdr] at hdm
          simp [hdm]
        | some p =>
          rcases p with ⟨s, r2⟩
          rw [hdr] at hdm
          simp [hdm, toList_node]

end SgTree

theorem ListMap.setVal_fst (k : K) (v : V) (l : List (K × V)) :
    (ListMap.setVal k v l).1 = ListMap.get k l := by
  induction l with
  | nil => rfl
  | cons e t ih =>
    by_cases he : e.1 = k
    · simp [ListMap.setVal, ListMap.get, if_pos he]
    · simp [ListMap.setVal, ListMap.get, if_neg he, ih]

theorem ListMap.setVal_of_get_none {k : K} (v : V) {l : List (K × V)}
    (h : ListMap.get k l = none) : ListMap.setVal k v l = (none, l) := by
  induction l with
  | nil => rfl
  | cons e t ih =>
    by_cases he : e.1 = k
    · rw [ListMap.get, if_pos he] at h
      cases h
    · rw [ListMap.get, if_neg he] at h
      simp [ListMap.setVal, if_neg he, ih h]

namespace SgTree

theorem replaceVal_spec {t : SgTree K V} (hs : KSorted t.toList) (k : K) (v : V) :
    ((t.replaceVal k v).1, (t.replaceVal k v).2.toList) = ListMap.setVal k v t.toList := by
  induction t with
  | leaf => rfl
  | node l k' v' r ihl ihr =>
    obtain ⟨hA, hB, hsA, hsB, _⟩ := ksorted_node_parts (A := l.toList) (B := r.toList)
      (by simpa [toList_node] using hs)
    rw [toList_node, ListMap.setVal_append]
    by_cases h1 : k < k'
    · have hrest : ListMap.get k ((k', v') :: r.toList) = none := by
        apply ListMap.get_eq_none_of_keys_ne
        intro e he
        rcases List.mem_cons.mp he with he | he
        · subst he; exact ne_of_gt h1
        · exact ne_of_gt (lt_trans h1 (hB e he))
      have ihA := ihl hsA
      rw [Prod.ext_iff] at ihA
      by_cases hg : (ListMap.get k l.toList).isSome
      · simp only [if_pos hg]
        simp only [replaceVal, if_pos h1, toList_node]
        rw [Prod.ext_iff]
        exact ⟨by simpa using ihA.1, by simp [← ihA.2]⟩
      · simp only [if_neg hg]
        have hgA : ListMap.get k l.toList = none := Option.not_isSome_iff_eq_none.mp hg
        have hsvA := ListMap.setVal_of_get_none (k := k) v hgA
        have hsvR := ListMap.setVal_of_get_none (k := k) v hrest
        rw [hsvR]
        rw [hsvA] at ihA
        simp only [replaceVal, if_pos h1, toList_node]
        rw [Prod.ext_iff]
        refine ⟨by simpa using ihA.1, ?_⟩
        have h2 : (SgTree.replaceVal k v l).2.toList = l.toList := by simpa using ihA.2
        simp [h2]
    · have hgA : ListMap.get k l.toList = none := by
        apply ListMap.get_eq_none_of_keys_ne
        intro e he
        exact ne_of_lt (lt_of_lt_of_le (hA e he) (not_lt.mp h1))
      rw [if_neg (by simp [hgA])]
      by_cases h2 : k' < k
      · have hne : ¬ k' = k := ne_of_lt h2
        rw [show ListMap.setVal k v ((k', v') :: r.toList)
            = ((ListMap.setVal k v r.toList).1, (k', v') :: (ListMap.setVal k v r.toList).2) by
          simp [ListMap.setVal, if_neg hne]]
        have ihB := ihr hsB
        rw [Prod.ext_iff] at ihB
        simp only [replaceVal, if_neg h1, if_pos h2, toList_node]
        rw [Prod.ext_iff]
        exact ⟨by simpa using ihB.1, by simp [← ihB.2]⟩
      · have hek : k' = k := le_antisymm (not_lt.mp h1) (not_lt.mp h2)
        rw [show ListMap.setVal k v ((k', v') :: r.toList)
            = (some v', (k, v) :: r.toList) by simp [ListMap.setVal, if_pos hek]]
        simp [replaceVal, if_neg h1, if_neg h2, toList_node]

end SgTree

namespace SgTree

theorem rangeGo_eq_filter {t : SgTree K V} (hs : KSorted t.toList) (r : SgBounds K) :
    t.rangeGo r = t.toList.filter (fun e => r.contains e.1) := by
  induction t with
  | leaf => rfl
  | node l k' v' rt ihl ihr =>
    obtain ⟨hA, hB, hsA, hsB, _⟩ := ksorted_node_parts (A := l.toList) (B := rt.toList)
      (by simpa [toList_node] using hs)
    rw [toList_node, List.filter_append, List.filter_cons]
    by_cases hlo : r.lo.lowerOk k' = true
    · by_cases hhi : r.hi.upperOk k' = true
      · have hck : r.contains k' = true := by
          simp [SgBounds.contains, hlo, hhi]
        rw [rangeGo, if_neg (by simp [hlo]), if_neg (by simp [hhi]), ihl hsA, ihr hsB]
        simp [hck]
      · have hB0 : ∀ e ∈ rt.toList, r.contains e.1 = false := by
          intro e he
          have : ¬ r.hi.upperOk e.1 = true := fun hc =>
            hhi (SgBound.upperOk_anti (le_of_lt (hB e he)) hc)
          simp [SgBounds.contains, Bool.eq_false_iff, this]
        have hfB : rt.toList.filter (fun e => r.contains e.1) = [] :=
          List.filter_eq_nil_iff.mpr (fun e he => by simp [hB0 e he])
        have hck : ¬ r.contains k' = true := by
          simp [SgBounds.contains, hhi]
        rw [rangeGo, if_neg (by simp [hlo]), if_pos (by simp [hhi]), ihl hsA]
        simp [hck, hfB]
    · have hA0 : ∀ e ∈ l.toList, r.contains e.1 = false := by
        intro e he
        have : ¬ r.lo.lowerOk e.1 = true := fun hc =>
          hlo (SgBound.lowerOk_mono (le_of_lt (hA e he)) hc)
        simp [SgBounds.contains, Bool.eq_false_iff, this]
      have hfA : l.toList.filter (fun e => r.contains e.1) = [] :=
        List.filter_eq_nil_iff.mpr (fun e he => by simp [hA0 e he])
      have hck : ¬ r.contains k' = true := by
        simp [SgBounds.contains, hlo]
      rw [rangeGo, if_pos (by simp [hlo]), ihr hsB]
      simp [hck, hfA]

end SgTree

-- Engine state ---------------------------------------------------------------

/-- Modelled from the spec: floor of the base-3/2 logarithm, the depth bound
of the scapegoat over-depth test for the documented rebalance factor 2/3
(fuel-indexed structural recursion). -/
def log32F : Nat → Nat → Nat
  | 0, _ => 0
  | fuel + 1, n => if n ≤ 1 then 0 else 1 + log32F fuel (n * 2 / 3)

/-- Modelled from the spec: the scapegoat depth bound, floor of log base 3/2. -/
def log32 (n : Nat) : Nat := log32F n n

/-- The panic message of the infallible capacity-exceeding mutators, pinned by
test_set_from_iter_panic in src/tests/test_set_api.rs. -/
def capacityPanicMsg : String := "Stack-storage capacity exceeded!"

/-- Modelled from the spec: the tree engine state owned by an SgMap of
capacity N: the root of the arena-held tree and the highest node count
observed since the last global rebuild. -/
structure SgMap (K V : Type) (N : Nat) where
  root : SgTree K V
  maxSize : Nat
deriving DecidableEq, Repr

namespace SgMap

variable {N : Nat}

/-- SgMap::new: the empty map. -/
def empty : SgMap K V N := ⟨.leaf, 0⟩

/-- The in-order entry sequence of the map: what iter yields. -/
def entries (m : SgMap K V N) : List (K × V) := m.root.toList

/-- SgMap::len. -/
def len (m : SgMap K V N) : Nat := m.entries.length

/-- SgMap::is_empty. -/
def checkEmpty (m : SgMap K V N) : Bool := m.len = 0

/-- SgMap::get. -/
def get (m : SgMap K V N) (k : K) : Option V := m.root.find k

/-- SgMap::contains_key. -/
def containsKey (m : SgMap K V N) (k : K) : Bool := (m.get k).isSome

/-- The well-formedness invariant of an engine map: the in-order entry
sequence is strictly key-sorted (BST order plus key uniqueness) and the
entry count fits the capacity. -/
def WF (m : SgMap K V N) : Prop := KSorted m.entries ∧ m.len ≤ N

/-- Modelled from the spec: insertion without the capacity gate: walk and
splice, update max_size_since_rebuild, and rebuild when the new node is
over-deep (the rebuild preserving the in-order entry sequence, as the spec's
scapegoat-subtree rebuild does). -/
def rawInsert (m : SgMap K V N) (k : K) (v : V) : SgMap K V N × Option V :=
  let p := m.root.insertGo k v
  let maxS := max m.maxSize p.1.size
  if p.2.2 > log32 p.1.size + 1 then
    (⟨buildBalanced p.1.toList, maxS⟩, p.2.1)
  else
    (⟨p.1, maxS⟩, p.2.1)

/-- Modelled from the spec: SgMap::try_insert: replacement of an existing
value always succeeds; a genuine insertion requires a free slot, otherwise
the error is returned with the tree untouched. -/
def tryInsert (m : SgMap K V N) (k : K) (v : V) :
    Except SgError (SgMap K V N × Option V) :=
  if m.containsKey k then .ok (m.rawInsert k v)
  else if m.len < N then .ok (m.rawInsert k v)
  else .error .stackCapacityExceeded

/-- Modelled from the spec: SgMap::insert, the infallible form: panics with
the documented message when capacity would be exceeded. -/
def insertP (m : SgMap K V N) (k : K) (v : V) :
    Except String (SgMap K V N × Option V) :=
  match m.tryInsert k v with
  | .ok p => .ok p
  | .error _ => .error capacityPanicMsg

/-- Modelled from the spec: the deletion-triggered global rebuild: when the
live size has dropped to the rebalance fraction of max_size_since_rebuild,
the whole tree is rebuilt and the counter reset. -/
def afterDelete (m : SgMap K V N) (t : SgTree K V) : SgMap K V N :=
  if 3 * t.size ≤ 2 * m.maxSize then ⟨buildBalanced t.toList, t.size⟩
  else ⟨t, m.maxSize⟩

/-- Modelled from the spec: SgMap::remove_entry: BST splice plus the
deletion-triggered rebuild; never fails. -/
def removeEntry (m : SgMap K V N) (k : K) : SgMap K V N × Option (K × V) :=
  match m.root.removeGo k with
  | none => (m, none)
  | some (e, t) => (m.afterDelete t, some e)

/-- Modelled from the spec: SgMap::pop_first: remove and return the least
entry. -/
def popFirst (m : SgMap K V N) : SgMap K V N × Option (K × V) :=
  match m.root.delMin with
  | none => (m, none)
  | some (e, t) => (m.afterDelete t, some e)

/-- Modelled from the spec: SgMap::pop_last: remove and return the greatest
entry. -/
def popLast (m : SgMap K V N) : SgMap K V N × Option (K × V) :=
  match m.root.delMax with
  | none => (m, none)
  | some (e, t) => (m.afterDelete t, some e)

/-- Modelled from the spec: SgMap::clear. -/
def clear (_m : SgMap K V N) : SgMap K V N := empty

/-- Modelled from the spec: SgMap::split_off: self retains the entries with
keys below the pivot, the returned map holds those at or above it, each side
produced by bulk rebuild from the sorted projection. -/
def splitOff (m : SgMap K V N) (k : K) : SgMap K V N × SgMap K V N :=
  let keep := m.entries.filter (fun e => decide (e.1 < k))
  let out := m.entries.filter (fun e => ! decide (e.1 < k))
  (⟨buildBalanced keep, keep.length⟩, ⟨buildBalanced out, out.length⟩)

/-- Modelled from the spec: SgMap::retain: keep exactly the entries satisfying
the predicate, with a single rebuild after the scan. -/
def retain (m : SgMap K V N) (p : K → V → Bool) : SgMap K V N :=
  let keep := m.entries.filter (fun e => p e.1 e.2)
  ⟨buildBalanced keep, keep.length⟩

/-- Modelled from the spec: SgMap::try_append: the capacity check on the
combined size (the number of distinct keys of the union, as exercised by
test_set_append_fallible) happens before any mutation; on success every entry
of the other map is inserted into self and the other map becomes empty. -/
def tryAppend (a b : SgMap K V N) :
    Except SgError (SgMap K V N × SgMap K V N) :=
  let add := (b.entries.filter (fun e => ! a.containsKey e.1)).length
  if N < a.len + add then .error .stackCapacityExceeded
  else .ok (b.entries.foldl (fun m e => (m.rawInsert e.1 e.2).1) a, empty)

/-- Modelled from the spec: SgMap::append, the infallible form: panics with
the documented message when capacity would be exceeded. -/
def appendP (a b : SgMap K V N) :
    Except String (SgMap K V N × SgMap K V N) :=
  match a.tryAppend b with
  | .ok p => .ok p
  | .error _ => .error capacityPanicMsg

/-- Modelled from the spec: bulk construction from a sequence (FromIterator),
built by repeated infallible insertion, hence panicking as soon as an
insertion would exceed the capacity. -/
def fromListP (l : List (K × V)) : Except String (SgMap K V N) :=
  l.foldlM (fun m e => (m.insertP e.1 e.2).map Prod.fst) empty

end SgMap

-- Range validity -------------------------------------------------------------

/-- The key carried by a bound endpoint, when any. -/
def SgBound.key? : SgBound K → Option K
  | .unbounded => none
  | .included k => some k
  | .excluded k => some k

/-- Whether the endpoint is an excluded bound. -/
def SgBound.excl : SgBound K → Bool
  | .excluded _ => true
  | _ => false

/-- Modelled from the spec: the caller-contract check run by SgMap::range and
SgMap::range_mut before building the iterator; the two diagnostics are pinned
by test_sg_set_range_panic_1 and test_sg_set_range_panic_2. -/
def SgBounds.check (r : SgBounds K) : Except String Unit :=
  match r.lo.key?, r.hi.key? with
  | some s, some e =>
    if e < s then .error "range start is greater than range end"
    else if s = e && r.lo.excl && r.hi.excl then
      .error "range start and end are equal and excluded"
    else .ok ()
  | _, _ => .ok ()

/-- A valid range specification: start not above end, and not both endpoints
excluded on one key. -/
def SgBounds.valid (r : SgBounds K) : Bool :=
  match r.lo.key?, r.hi.key? with
  | some s, some e =>
    ! decide (e < s) && ! (decide (s = e) && r.lo.excl && r.hi.excl)
  | _, _ => true

/-- Modelled from the spec: SgMap::range: check the bounds (panicking on the
caller-contract violations) and yield the in-range entries in ascending key
order. -/
def SgMap.range {N : Nat} (m : SgMap K V N) (r : SgBounds K) :
    Except String (List (K × V)) :=
  match r.check with
  | .error msg => .error msg
  | .ok _ => .ok (m.root.rangeGo r)

-- Engine-level correspondence lemmas ----------------------------------------

namespace SgMap

variable {N : Nat}

theorem empty_entries : (empty : SgMap K V N).entries = [] := rfl

theorem empty_WF : (empty : SgMap K V N).WF := ⟨List.Pairwise.nil, by simp [len, empty_entries]⟩

theorem get_eq {m : SgMap K V N} (hs : KSorted m.entries) (k : K) :
    m.get k = ListMap.get k m.entries :=
  SgTree.find_eq_get hs k

theorem rawInsert_spec {m : SgMap K V N} (hs : KSorted m.entries) (k : K) (v : V) :
    ((m.rawInsert k v).1.entries, (m.rawInsert k v).2) = ListMap.insert k v m.entries := by
  have h := SgTree.insertGo_spec hs k v
  simp only [rawInsert]
  split
  · simpa [entries, buildBalanced_toList] using h
  · exact h

theorem rawInsert_entries {m : SgMap K V N} (hs : KSorted m.entries) (k : K) (v : V) :
    (m.rawInsert k v).1.entries = (ListMap.insert k v m.entries).1 :=
  congrArg Prod.fst (rawInsert_spec hs k v)

theorem rawInsert_old {m : SgMap K V N} (hs : KSorted m.entries) (k : K) (v : V) :
    (m.rawInsert k v).2 = (ListMap.insert k v m.entries).2 :=
  congrArg Prod.snd (rawInsert_spec hs k v)

theorem rawInsert_ksorted {m : SgMap K V N} (hs : KSorted m.entries) (k : K) (v : V) :
    KSorted (m.rawInsert k v).1.entries := by
  rw [rawInsert_entries hs]
  exact ListMap.insert_ksorted hs

theorem rawInsert_len {m : SgMap K V N} (hs : KSorted m.entries) (k : K) (v : V) :
    (m.rawInsert k v).1.len = m.len + (if m.containsKey k then 0 else 1) := by
  have hlen := ListMap.insert_length k v m.entries
  have hold : (ListMap.insert k v m.entries).2 = ListMap.get k m.entries :=
    ListMap.insert_old_eq_get hs
  unfold len
  rw [rawInsert_entries hs, hlen, hold]
  unfold containsKey
  rw [get_eq hs]

theorem afterDelete_entries (m : SgMap K V N) (t : SgTree K V) :
    (m.afterDelete t).entries = t.toList := by
  unfold afterDelete
  split
  · simp [entries, buildBalanced_toList]
  · rfl

theorem removeEntry_spec {m : SgMap K V N} (hs : KSorted m.entries) (k : K) :
    ((m.removeEntry k).1.entries, (m.removeEntry k).2) =
      match ListMap.remove k m.entries with
      | none => (m.entries, none)
      | some (e, t) => (t, some e) := by
  have h := SgTree.removeGo_spec hs k
  unfold removeEntry
  cases hrg : m.root.removeGo k with
  | none =>
    rw [hrg] at h
    simp only [Option.map_none'] at h
    rw [show ListMap.remove k m.entries = none from h]
  | some p =>
    rcases p with ⟨e, t⟩
    rw [hrg] at h
    simp only [Option.map_some'] at h
    rw [show ListMap.remove k m.entries = some (e, t.toList) from h]
    simp [afterDelete_entries]

theorem popFirst_spec (m : SgMap K V N) :
    ((m.popFirst).1.entries, (m.popFirst).2) =
      match m.entries with
      | [] => (m.entries, none)
      | e :: t => (t, some e) := by
  have h := SgTree.delMin_spec m.root
  unfold popFirst
  cases hdm : m.root.delMin with
  | none =>
    rw [hdm] at h
    simp only at h
    rw [show m.entries = [] from h]
  | some p =>
    rcases p with ⟨e, t⟩
    rw [hdm] at h
    simp only at h
    rw [show m.entries = e :: t.toList from h]
    simp [afterDelete_entries]

theorem popLast_spec (m : SgMap K V N) :
    ((m.popLast).1.entries, (m.popLast).2) =
      match m.entries.getLast? with
      | none => (m.entries, none)
      | some e => (m.entries.dropLast, some e) := by
  have h := SgTree.delMax_spec m.root
  unfold popLast
  cases hdm : m.root.delMax with
  | none =>
    rw [hdm] at h
    simp only at h
    rw [show m.entries = [] from h]
    rfl
  | some p =>
    rcases p with ⟨e, t⟩
    rw [hdm] at h
    simp only at h
    rw [show m.entries = t.toList ++ [e] from h]
    simp [afterDelete_entries]

theorem splitOff_entries (m : SgMap K V N) (k : K) :
    ((m.splitOff k).1.entries, (m.splitOff k).2.entries) =
      (m.entries.filter (fun e => decide (e.1 < k)),
        m.entries.filter (fun e => ! decide (e.1 < k))) := by
  simp [splitOff, entries, buildBalanced_toList]

theorem retain_entries (m : SgMap K V N) (p : K → V → Bool) :
    (m.retain p).entries = m.entries.filter (fun e => p e.1 e.2) := by
  simp [retain, entries, buildBalanced_toList]

theorem range_ok {m : SgMap K V N} (hs : KSorted m.entries) {r : SgBounds K}
    {L : List (K × V)} (h : m.range r = .ok L) :
    L = m.entries.filter (fun e => r.contains e.1) := by
  unfold range at h
  cases hc : r.check with
  | error msg => rw [hc] at h; cases h
  | ok _ =>
    rw [hc] at h
    cases h
    exact SgTree.rangeGo_eq_filter hs r

end SgMap

-- Mutable iterator and Peekable ----------------------------------------------

/-- Modelled from the spec: crate::tree::IterMut (tree.rs not in src/), the
double-ended mutable in-order iterator over the tree; its observable state is
the remaining in-order entry sequence, consumed from either end. -/
structure IterMutM (K V : Type) where
  elems : List (K × V)
deriving DecidableEq, Repr

/-- IterMut::next: take the in-order least remaining entry. -/
def IterMutM.next (it : IterMutM K V) : Option (K × V) × IterMutM K V :=
  match it.elems with
  | [] => (none, it)
  | e :: rest => (some e, ⟨rest⟩)

/-- IterMut::next_back: take the in-order greatest remaining entry. -/
def IterMutM.nextBack (it : IterMutM K V) : Option (K × V) × IterMutM K V :=
  match it.elems.getLast? with
  | none => (none, it)
  | some e => (some e, ⟨it.elems.dropLast⟩)

/-- core::iter::Peekable over the mutable tree iterator, as used by RangeMut
in src/src/map_types.rs: the inner iterator plus the peeked slot (which is
Some(None) once the inner iterator is known exhausted). -/
structure Peekable (K V : Type) where
  peeked : Option (Option (K × V))
  iter : IterMutM K V
deriving DecidableEq, Repr

/-- Peekable::peek: fill the peeked slot from the inner iterator if empty and
return its content. -/
def Peekable.peek (s : Peekable K V) : Option (K × V) × Peekable K V :=
  match s.peeked with
  | some p => (p, s)
  | none =>
    let q := s.iter.next
    (q.1, ⟨some q.1, q.2⟩)

/-- Peekable::next: drain the peeked slot first, else pull from the inner
iterator. -/
def Peekable.next (s : Peekable K V) : Option (K × V) × Peekable K V :=
  match s.peeked with
  | some p => (p, ⟨none, s.iter⟩)
  | none =>
    let q := s.iter.next
    (q.1, ⟨none, q.2⟩)

/-- Peekable::next_back: pull from the back of the inner iterator, falling
back to the peeked slot once the inner iterator is exhausted. -/
def Peekable.nextBack (s : Peekable K V) : Option (K × V) × Peekable K V :=
  match s.peeked with
  | some (some x) =>
    match s.iter.nextBack with
    | (some y, it) => (some y, ⟨some (some x), it⟩)
    | (none, it) => (some x, ⟨some none, it⟩)
  | some none => (none, s)
  | none =>
    let q := s.iter.nextBack
    (q.1, ⟨none, q.2⟩)

/-- The entry sequence a peekable iterator still holds: the peeked entry, if
any, followed by the inner iterator's remaining entries. -/
def Peekable.abs (s : Peekable K V) : List (K × V) :=
  (match s.peeked with
   | some (some x) => [x]
   | _ => []) ++ s.iter.elems

/-- The structural invariant of a peekable iterator: a peeked None witnesses
that the inner iterator is exhausted. -/
def Peekable.inv (s : Peekable K V) : Prop :=
  s.peeked = some none → s.iter.elems = []

-- RangeMut -------------------------------------------------------------------

/-- Translated from src/src/map_types.rs RangeMut: the mutable sub-range
iterator: the peekable whole-tree mutable iterator advanced past the
out-of-range prefix, the saved last in-range entry, the precomputed number of
in-range entries, and the number of entries already yielded. -/
structure RangeMut (K V : Type) where
  inner : Peekable K V
  last : Option (K × V)
  totalCnt : Nat
  spentCnt : Nat
deriving DecidableEq, Repr

/-- Translated from RangeMut::compute_len and init_iter_mut, first loop:
advance the peekable iterator until its head is in range (or it is
exhausted).  Fuel-indexed embedding of the while loop. -/
def skipLoop (r : SgBounds K) : Nat → Peekable K V → Peekable K V
  | 0, s => s
  | fuel + 1, s =>
    match s.peek with
    | (none, s1) => s1
    | (some e, s1) => if r.contains e.1 then s1 else skipLoop r fuel s1.next.2

/-- Translated from RangeMut::compute_len, second loop: count entries while
they remain in range, stopping at the first out-of-range entry. -/
def countLoop (r : SgBounds K) : Nat → Peekable K V → Nat → Nat
  | 0, _, acc => acc
  | fuel + 1, s, acc =>
    match s.next with
    | (none, _) => acc
    | (some e, s1) => if r.contains e.1 then countLoop r fuel s1 (acc + 1) else acc

/-- Translated from RangeMut::compute_len: the number of entries the range
iterator will return, computed by an immutable pass. -/
def computeLen (r : SgBounds K) (l : List (K × V)) : Nat :=
  countLoop r (l.length + 1) (skipLoop r (l.length + 1) ⟨none, ⟨l⟩⟩) 0

/-- Translated from RangeMut::init_iter_mut, second loop: pop entries from the
back until one is in range; that entry becomes the dedicated last slot. -/
def backLoop (r : SgBounds K) : Nat → Peekable K V → Peekable K V × Option (K × V)
  | 0, s => (s, none)
  | fuel + 1, s =>
    match s.nextBack with
    | (none, s1) => (s1, none)
    | (some e, s1) => if r.contains e.1 then (s1, some e) else backLoop r fuel s1

/-- Translated from RangeMut::init_iter_mut: prepare the mutable iterator to
return the first in-range entry, and remember the last in-range entry
separately. -/
def initIterMut (r : SgBounds K) (l : List (K × V)) :
    Peekable K V × Option (K × V) :=
  backLoop r (l.length + 1) (skipLoop r (l.length + 1) ⟨none, ⟨l⟩⟩)

/-- Translated from RangeMut::new. -/
def RangeMut.new {N : Nat} (m : SgMap K V N) (r : SgBounds K) : RangeMut K V :=
  let len := computeLen r m.entries
  let p := initIterMut r m.entries
  ⟨p.1, p.2, len, 0⟩

/-- Translated from the Iterator impl for RangeMut: while the yield budget is
not spent, pull from the inner iterator, falling back to the saved last
entry. -/
def RangeMut.next (s : RangeMut K V) : Option (K × V) × RangeMut K V :=
  if s.spentCnt < s.totalCnt then
    match s.inner.next with
    | (some e, inner1) => (some e, ⟨inner1, s.last, s.totalCnt, s.spentCnt + 1⟩)
    | (none, inner1) => (s.last, ⟨inner1, none, s.totalCnt, s.spentCnt + 1⟩)
  else (none, s)

/-- Translated from the DoubleEndedIterator impl for RangeMut: while the
yield budget is not spent, take the saved last entry first, else pull from
the back of the inner iterator. -/
def RangeMut.nextBack (s : RangeMut K V) : Option (K × V) × RangeMut K V :=
  if s.spentCnt < s.totalCnt then
    match s.last with
    | some e => (some e, ⟨s.inner, none, s.totalCnt, s.spentCnt + 1⟩)
    | none =>
      match s.inner.nextBack with
      | (o, inner1) => (o, ⟨inner1, none, s.totalCnt, s.spentCnt + 1⟩)
  else (none, s)

/-- Drive a RangeMut by an arbitrary interleaving of forward (true) and
backward (false) calls, collecting the forward yields and the backward yields
in call order. -/
def RangeMut.run (s : RangeMut K V) :
    List Bool → List (K × V) × List (K × V) × RangeMut K V
  | [] => ([], [], s)
  | true :: ds =>
    let p := s.next
    let q := RangeMut.run p.2 ds
    (p.1.toList ++ q.1, q.2.1, q.2.2)
  | false :: ds =>
    let p := s.nextBack
    let q := RangeMut.run p.2 ds
    (q.1, p.1.toList ++ q.2.1, q.2.2)

-- Peekable step lemmas -------------------------------------------------------

namespace Peekable

theorem next_nil {s : Peekable K V} (h : s.abs = []) (hinv : s.inv) :
    s.next.1 = none ∧ s.next.2.abs = [] ∧ s.next.2.inv := by
  rcases s with ⟨pk, ⟨el⟩⟩
  cases pk with
  | none =>
    have hel : el = [] := by simpa [abs] using h
    subst hel
    exact ⟨rfl, rfl, by intro hc; cases hc⟩
  | some p =>
    cases p with
    | none =>
      have hel : el = [] := hinv rfl
      subst hel
      exact ⟨rfl, rfl, by intro hc; cases hc⟩
    | some x => simp [abs] at h

theorem next_cons {s : Peekable K V} {e : K × V} {rest : List (K × V)}
    (h : s.abs = e :: rest) (hinv : s.inv) :
    s.next.1 = some e ∧ s.next.2.abs = rest ∧ s.next.2.inv := by
  rcases s with ⟨pk, ⟨el⟩⟩
  cases pk with
  | none =>
    have hel : el = e :: rest := by simpa [abs] using h
    subst hel
    exact ⟨rfl, rfl, by intro hc; cases hc⟩
  | some p =>
    cases p with
    | none =>
      have hel : el = [] := hinv rfl
      subst hel
      simp [abs] at h
    | some x =>
      simp only [abs, List.cons_append, List.nil_append, List.cons.injEq] at h
      refine ⟨by simp [next, h.1], ?_, by intro hc; cases hc⟩
      simp [next, abs, h.2]

theorem nextBack_nil {s : Peekable K V} (h : s.abs = []) (hinv : s.inv) :
    s.nextBack.1 = none ∧ s.nextBack.2.abs = [] ∧ s.nextBack.2.inv := by
  rcases s with ⟨pk, ⟨el⟩⟩
  cases pk with
  | none =>
    have hel : el = [] := by simpa [abs] using h
    subst hel
    exact ⟨rfl, rfl, by intro hc; cases hc⟩
  | some p =>
    cases p with
    | none =>
      have hel : el = [] := hinv rfl
      subst hel
      exact ⟨rfl, rfl, fun _ => rfl⟩
    | some x => simp [abs] at h

theorem nextBack_concat {s : Peekable K V} {e : K × V} {rest : List (K × V)}
    (h : s.abs = rest ++ [e]) (hinv : s.inv) :
    s.nextBack.1 = some e ∧ s.nextBack.2.abs = rest ∧ s.nextBack.2.inv := by
  rcases s with ⟨pk, ⟨el⟩⟩
  cases pk with
  | none =>
    have hel : el = rest ++ [e] := by simpa [abs] using h
    subst hel
    refine ⟨?_, ?_, by intro hc; cases hc⟩
    · simp [nextBack, IterMutM.nextBack]
    · simp [nextBack, IterMutM.nextBack, abs, List.dropLast_concat]
  | some p =>
    cases p with
    | none =>
      have hel : el = [] := hinv rfl
      subst hel
      simp [abs] at h
    | some x =>
      simp only [abs, List.cons_append, List.nil_append] at h
      cases rest with
      | nil =>
        simp only [List.nil_append, List.cons.injEq] at h
        obtain ⟨hx, hel⟩ := h
        subst hx
        subst hel
        exact ⟨rfl, rfl, fun _ => rfl⟩
      | cons f rest1 =>
        simp only [List.cons_append, List.cons.injEq] at h
        obtain ⟨hx, hel⟩ := h
        subst hx
        have hne : el ≠ [] := by
          rw [hel]
          exact (List.append_ne_nil_of_right_ne_nil _ (by simp))
        have hgl : el.getLast? = some e := by
          rw [hel]
          exact List.getLast?_concat _
        refine ⟨?_, ?_, ?_⟩
        · simp [nextBack, IterMutM.nextBack, hgl]
        · simp [nextBack, IterMutM.nextBack, hgl, abs, hel, List.dropLast_concat]
        · simp [nextBack, IterMutM.nextBack, hgl, inv]

end Peekable

theorem Peekable.peek_spec {s : Peekable K V} (hinv : s.inv) :
    s.peek.1 = s.abs.head? ∧ s.peek.2.abs = s.abs ∧ s.peek.2.inv := by
  rcases s with ⟨pk, ⟨el⟩⟩
  cases pk with
  | none =>
    cases el with
    | nil => exact ⟨rfl, rfl, fun _ => rfl⟩
    | cons e rest => exact ⟨rfl, rfl, by intro hc; cases hc⟩
  | some p =>
    cases p with
    | none =>
      have hel : el = [] := hinv rfl
      subst hel
      exact ⟨rfl, rfl, fun _ => rfl⟩
    | some x => exact ⟨rfl, rfl, hinv⟩

-- Generic takeWhile and dropWhile helpers ------------------------------------

theorem takeWhile_all_true {α : Type} {p : α → Bool} :
    ∀ {xs : List α}, (∀ x ∈ xs, p x = true) → ∀ ys,
      (xs ++ ys).takeWhile p = xs ++ ys.takeWhile p := by
  intro xs
  induction xs with
  | nil => intro _ ys; simp
  | cons x t ih =>
    intro h ys
    have hx : p x = true := h x (by simp)
    simp only [List.cons_append, List.takeWhile_cons, hx, if_true]
    rw [ih (fun y hy => h y (by simp [hy])) ys]

theorem dropWhile_all_true {α : Type} {p : α → Bool} :
    ∀ {xs : List α}, (∀ x ∈ xs, p x = true) → ∀ ys,
      (xs ++ ys).dropWhile p = ys.dropWhile p := by
  intro xs
  induction xs with
  | nil => intro _ ys; simp
  | cons x t ih =>
    intro h ys
    have hx : p x = true := h x (by simp)
    simp only [List.cons_append, List.dropWhile_cons, hx, if_true]
    exact ih (fun y hy => h y (by simp [hy])) ys

theorem takeWhile_nil_of_all_false {α : Type} {p : α → Bool} :
    ∀ {xs : List α}, (∀ x ∈ xs, p x = false) → xs.takeWhile p = [] := by
  intro xs
  cases xs with
  | nil => intro _; rfl
  | cons x t =>
    intro h
    simp [List.takeWhile_cons, h x (by simp)]

theorem dropWhile_eq_self_of_all_false {α : Type} {p : α → Bool} :
    ∀ {xs : List α}, (∀ x ∈ xs, p x = false) → xs.dropWhile p = xs := by
  intro xs
  cases xs with
  | nil => intro _; rfl
  | cons x t =>
    intro h
    simp [List.dropWhile_cons, h x (by simp)]

theorem all_takeWhile {α : Type} {p : α → Bool} :
    ∀ (xs : List α), ∀ x ∈ xs.takeWhile p, p x = true := by
  intro xs
  induction xs with
  | nil => intro x hx; cases hx
  | cons y t ih =>
    intro x hx
    by_cases hy : p y = true
    · rw [List.takeWhile_cons, if_pos hy] at hx
      rcases List.mem_cons.mp hx with hx | hx
      · rw [hx]; exact hy
      · exact ih x hx
    · rw [List.takeWhile_cons, if_neg hy] at hx
      cases hx

theorem dropWhile_head_not {α : Type} {p : α → Bool} :
    ∀ {xs : List α} {y : α} {ys : List α}, xs.dropWhile p = y :: ys → p y = false := by
  intro xs
  induction xs with
  | nil => intro y ys h; cases h
  | cons x t ih =>
    intro y ys h
    by_cases hx : p x = true
    · rw [List.dropWhile_cons, if_pos hx] at h
      exact ih h
    · rw [List.dropWhile_cons, if_neg hx] at h
      cases h
      exact Bool.eq_false_iff.mpr hx

-- Loop characterizations -----------------------------------------------------

theorem skipLoop_spec (r : SgBounds K) :
    ∀ (fuel : Nat) (s : Peekable K V), s.inv → s.abs.length < fuel →
      (skipLoop r fuel s).abs = s.abs.dropWhile (fun e => ! r.contains e.1)
      ∧ (skipLoop r fuel s).inv := by
  intro fuel
  induction fuel with
  | zero => intro s _ h; omega
  | succ fuel ih =>
    intro s hinv hlen
    obtain ⟨hp1, hp2, hp3⟩ := Peekable.peek_spec (s := s) hinv
    rw [skipLoop]
    split
    next s1 heq =>
      rw [heq] at hp1 hp2 hp3
      simp only at hp1 hp2 hp3
      have habs : s.abs = [] := by
        cases habs : s.abs with
        | nil => rfl
        | cons a t => rw [habs] at hp1; cases hp1
      rw [habs] at hp2
      rw [habs, List.dropWhile_nil]
      exact ⟨hp2, hp3⟩
    next e s1 heq =>
      rw [heq] at hp1 hp2 hp3
      simp only at hp1 hp2 hp3
      obtain ⟨rest, habs⟩ : ∃ rest, s.abs = e :: rest := by
        cases habs : s.abs with
        | nil => rw [habs] at hp1; cases hp1
        | cons a t =>
          rw [habs] at hp1
          simp only [List.head?_cons, Option.some_inj] at hp1
          exact ⟨t, by rw [hp1]⟩
      by_cases hc : r.contains e.1 = true
      · rw [if_pos hc, habs, List.dropWhile_cons, if_neg (by simp [hc])]
        rw [habs] at hp2
        exact ⟨hp2, hp3⟩
      · rw [if_neg hc]
        rw [habs] at hp2
        obtain ⟨hn1, hn2, hn3⟩ := Peekable.next_cons (s := s1) hp2 hp3
        have hlen2 : s1.next.2.abs.length < fuel := by
          rw [hn2]
          rw [habs] at hlen
          simp only [List.length_cons] at hlen
          omega
        have hrec := ih s1.next.2 hn3 hlen2
        constructor
        · rw [hrec.1, hn2, habs, List.dropWhile_cons,
            if_pos (by simp [Bool.eq_false_iff.mpr hc])]
        · exact hrec.2

theorem countLoop_spec (r : SgBounds K) :
    ∀ (fuel : Nat) (s : Peekable K V) (acc : Nat), s.inv → s.abs.length < fuel →
      countLoop r fuel s acc
        = acc + (s.abs.takeWhile (fun e => r.contains e.1)).length := by
  intro fuel
  induction fuel with
  | zero => intro s acc _ h; omega
  | succ fuel ih =>
    intro s acc hinv hlen
    rw [countLoop]
    split
    next s1 heq =>
      have habs : s.abs = [] := by
        cases habs : s.abs with
        | nil => rfl
        | cons a t =>
          obtain ⟨hn1, _, _⟩ := Peekable.next_cons habs hinv
          rw [heq] at hn1
          cases hn1
      rw [habs, List.takeWhile_nil]
      simp
    next e s1 heq =>
      obtain ⟨rest, habs⟩ : ∃ rest, s.abs = e :: rest := by
        cases habs : s.abs with
        | nil =>
          obtain ⟨hn1, _, _⟩ := Peekable.next_nil habs hinv
          rw [heq] at hn1
          cases hn1
        | cons a t =>
          obtain ⟨hn1, _, _⟩ := Peekable.next_cons habs hinv
          rw [heq] at hn1
          simp only [Option.some_inj] at hn1
          exact ⟨t, by rw [hn1]⟩
      obtain ⟨hn1, hn2, hn3⟩ := Peekable.next_cons habs hinv
      rw [heq] at hn1 hn2 hn3
      simp only at hn1 hn2 hn3
      by_cases hc : r.contains e.1 = true
      · rw [if_pos hc]
        have hlen2 : s1.abs.length < fuel := by
          rw [hn2]
          rw [habs] at hlen
          simp only [List.length_cons] at hlen
          omega
        rw [ih s1 (acc + 1) hn3 hlen2, hn2, habs, List.takeWhile_cons, if_pos hc]
        simp only [List.length_cons]
        omega
      · rw [if_neg hc, habs, List.takeWhile_cons, if_neg hc]
        simp

theorem backLoop_spec (r : SgBounds K) :
    ∀ (fuel : Nat) (s : Peekable K V), s.inv → s.abs.length < fuel →
      ((backLoop r fuel s).1.abs
          = ((s.abs.reverse.dropWhile (fun e => ! r.contains e.1)).tail).reverse
        ∧ (backLoop r fuel s).2
          = (s.abs.reverse.dropWhile (fun e => ! r.contains e.1)).head?)
      ∧ (backLoop r fuel s).1.inv := by
  intro fuel
  induction fuel with
  | zero => intro s _ h; omega
  | succ fuel ih =>
    intro s hinv hlen
    rw [backLoop]
    split
    next s1 heq =>
      have habs : s.abs = [] := by
        cases habs : s.abs.reverse with
        | nil =>
          have := congrArg List.reverse habs
          simpa using this
        | cons a t =>
          have habs0 : s.abs = t.reverse ++ [a] := by
            have := congrArg List.reverse habs
            simpa using this
          obtain ⟨hn1, _, _⟩ := Peekable.nextBack_concat habs0 hinv
          rw [heq] at hn1
          cases hn1
      obtain ⟨hn1, hn2, hn3⟩ := Peekable.nextBack_nil habs hinv
      rw [heq] at hn1 hn2 hn3
      simp only at hn1 hn2 hn3
      rw [habs]
      simp only [List.reverse_nil, List.dropWhile_nil, List.tail_nil,
        List.head?_nil]
      refine ⟨⟨?_, ?_⟩, hn3⟩
      · simpa using hn2
      · simp
    next e s1 heq =>
      obtain ⟨ws, habs⟩ : ∃ ws, s.abs.reverse = e :: ws := by
        cases habs : s.abs.reverse with
        | nil =>
          have habs0 : s.abs = [] := by
            have := congrArg List.reverse habs
            simpa using this
          obtain ⟨hn1, _, _⟩ := Peekable.nextBack_nil habs0 hinv
          rw [heq] at hn1
          cases hn1
        | cons a t =>
          have habs0 : s.abs = t.reverse ++ [a] := by
            have := congrArg List.reverse habs
            simpa using this
          obtain ⟨hn1, _, _⟩ := Peekable.nextBack_concat habs0 hinv
          rw [heq] at hn1
          simp only [Option.some_inj] at hn1
          exact ⟨t, by rw [hn1]⟩
      have habs0 : s.abs = ws.reverse ++ [e] := by
        have := congrArg List.reverse habs
        simpa using this
      obtain ⟨hn1, hn2, hn3⟩ := Peekable.nextBack_concat habs0 hinv
      rw [heq] at hn1 hn2 hn3
      simp only at hn1 hn2 hn3
      rw [habs]
      by_cases hc : r.contains e.1 = true
      · rw [if_pos hc, List.dropWhile_cons, if_neg (by simp [hc])]
        simp only [List.tail_cons, List.head?_cons]
        refine ⟨⟨?_, by simp⟩, hn3⟩
        rw [hn2]
      · rw [if_neg hc]
        have hlen2 : s1.abs.length < fuel := by
          rw [hn2]
          have hl : s.abs.length = ws.reverse.length + 1 := by rw [habs0]; simp
          omega
        have hrec := ih s1 hn3 hlen2
        rw [List.dropWhile_cons, if_pos (by simp [Bool.eq_false_iff.mpr hc])]
        rw [hn2] at hrec
        simpa using hrec

-- Sorted-interval decomposition ----------------------------------------------

theorem contains_convex {r : SgBounds K} {x y z : K} (hxy : x ≤ y) (hyz : y ≤ z)
    (hx : r.contains x = true) (hz : r.contains z = true) :
    r.contains y = true := by
  simp only [SgBounds.contains, Bool.and_eq_true] at hx hz ⊢
  exact ⟨SgBound.lowerOk_mono hxy hx.1, SgBound.upperOk_anti hyz hz.2⟩

theorem range_tail_all_false {l : List (K × V)} (hs : KSorted l) (r : SgBounds K) :
    ∀ e ∈ (l.dropWhile (fun e => ! r.contains e.1)).dropWhile
        (fun e => r.contains e.1), r.contains e.1 = false := by
  intro e he
  generalize hrest : l.dropWhile (fun e => ! r.contains e.1) = rest at he
  have hsrest : KSorted rest := by
    have hsplit := List.takeWhile_append_dropWhile
      (p := fun e => ! r.contains e.1) (l := l)
    rw [hrest] at hsplit
    rw [← hsplit] at hs
    exact hs.sub_right
  cases hBc : rest.dropWhile (fun e => r.contains e.1) with
  | nil => rw [hBc] at he; cases he
  | cons b0 B1 =>
    rw [hBc] at he
    have hcb0 : r.contains b0.1 = false := by
      have := dropWhile_head_not (p := fun e : K × V => r.contains e.1) hBc
      simpa using this
    have hb0rest : b0 ∈ rest :=
      (List.dropWhile_suffix (fun e => r.contains e.1)).sublist.subset
        (by rw [hBc]; simp)
    cases hrc : rest with
    | nil => rw [hrc] at hb0rest; cases hb0rest
    | cons r0 rest1 =>
      have hcr0 : r.contains r0.1 = true := by
        have := dropWhile_head_not (p := fun e : K × V => ! r.contains e.1) (hrest ▸ hrc)
        simpa using this
      have hr0b0 : r0.1 ≤ b0.1 := by
        rw [hrc] at hb0rest
        rcases List.mem_cons.mp hb0rest with h | h
        · rw [h]
        · exact le_of_lt ((ksorted_cons.mp (hrc ▸ hsrest)).1 b0 h)
      have hb0e : b0.1 ≤ e.1 := by
        rcases List.mem_cons.mp he with h | h
        · rw [h]
        · have hsB : KSorted (b0 :: B1) := by
            have hsplit := List.takeWhile_append_dropWhile
              (p := fun e => r.contains e.1) (l := rest)
            rw [hBc] at hsplit
            rw [← hsplit] at hsrest
            exact hsrest.sub_right
          exact le_of_lt ((ksorted_cons.mp hsB).1 e h)
      by_contra hcon
      have hce : r.contains e.1 = true := by
        cases hcc : r.contains e.1
        · exact absurd hcc hcon
        · rfl
      have : r.contains b0.1 = true := contains_convex hr0b0 hb0e hcr0 hce
      rw [hcb0] at this
      cases this

theorem range_takeWhile_eq_filter {l : List (K × V)} (hs : KSorted l)
    (r : SgBounds K) :
    (l.dropWhile (fun e => ! r.contains e.1)).takeWhile (fun e => r.contains e.1)
      = l.filter (fun e => r.contains e.1) := by
  have hBfalse := range_tail_all_false hs r
  have hsplit := List.takeWhile_append_dropWhile
    (p := fun e => ! r.contains e.1) (l := l)
  have hAfalse : ∀ e ∈ l.takeWhile (fun e => ! r.contains e.1),
      r.contains e.1 = false := by
    intro e he
    have := all_takeWhile (p := fun e => ! r.contains e.1) l e he
    simpa using this
  conv_rhs => rw [← hsplit]
  rw [List.filter_append]
  rw [List.filter_eq_nil_iff.mpr (fun e he => by simp [hAfalse e he])]
  have hsplit2 := List.takeWhile_append_dropWhile
    (p := fun e => r.contains e.1) (l := l.dropWhile (fun e => ! r.contains e.1))
  conv_rhs => rw [← hsplit2]
  rw [List.filter_append]
  rw [List.filter_eq_self.mpr (fun e he => all_takeWhile _ e he),
    List.filter_eq_nil_iff.mpr (fun e he => by simp [hBfalse e he])]
  simp

theorem range_reverse_drop {l : List (K × V)} (hs : KSorted l) (r : SgBounds K) :
    (l.dropWhile (fun e => ! r.contains e.1)).reverse.dropWhile
        (fun e => ! r.contains e.1)
      = (l.filter (fun e => r.contains e.1)).reverse := by
  have hRfilter := range_takeWhile_eq_filter hs r
  have hBfalse := range_tail_all_false hs r
  have hsplit2 := List.takeWhile_append_dropWhile
    (p := fun e => r.contains e.1) (l := l.dropWhile (fun e => ! r.contains e.1))
  have hrev : (l.dropWhile (fun e => ! r.contains e.1)).reverse
      = ((l.dropWhile (fun e => ! r.contains e.1)).dropWhile
          (fun e => r.contains e.1)).reverse
        ++ ((l.dropWhile (fun e => ! r.contains e.1)).takeWhile
          (fun e => r.contains e.1)).reverse := by
    conv_lhs => rw [← hsplit2]
    simp
  rw [hrev, dropWhile_all_true (fun e he => by
    rw [List.mem_reverse] at he
    simp [hBfalse e he]) _]
  rw [hRfilter]
  cases hrev2 : (l.filter (fun e => r.contains e.1)).reverse with
  | nil => simp
  | cons y ys =>
    have hy : y ∈ l.filter (fun e => r.contains e.1) := by
      have : y ∈ (l.filter (fun e => r.contains e.1)).reverse := by
        rw [hrev2]; simp
      rwa [List.mem_reverse] at this
    have hcy : r.contains y.1 = true := by
      have := List.of_mem_filter hy
      simpa using this
    rw [List.dropWhile_cons, if_neg (by simp [hcy])]

theorem rangeMutNew_spec {N : Nat} {m : SgMap K V N} (hs : KSorted m.entries)
    (r : SgBounds K) :
    (RangeMut.new m r).inner.abs ++ ((RangeMut.new m r).last.toList)
        = m.entries.filter (fun e => r.contains e.1)
    ∧ (RangeMut.new m r).inner.inv
    ∧ (RangeMut.new m r).totalCnt
        = (m.entries.filter (fun e => r.contains e.1)).length
    ∧ (RangeMut.new m r).spentCnt = 0 := by
  set l := m.entries with hl
  set R := l.filter (fun e => r.contains e.1) with hR
  have hs0inv : (⟨none, ⟨l⟩⟩ : Peekable K V).inv := by intro hc; cases hc
  have hs0abs : (⟨none, ⟨l⟩⟩ : Peekable K V).abs = l := rfl
  have hfuel : (⟨none, ⟨l⟩⟩ : Peekable K V).abs.length < l.length + 1 := by
    rw [hs0abs]; omega
  obtain ⟨hskipabs, hskipinv⟩ := skipLoop_spec r (l.length + 1) _ hs0inv hfuel
  rw [hs0abs] at hskipabs
  set s1 := skipLoop r (l.length + 1) (⟨none, ⟨l⟩⟩ : Peekable K V) with hs1
  have hs1len : s1.abs.length < l.length + 1 := by
    rw [hskipabs]
    have := (List.dropWhile_suffix (fun e : K × V => ! r.contains e.1)
      (l := l)).sublist.length_le
    omega
  have hcount : computeLen r l = R.length := by
    rw [computeLen, countLoop_spec r (l.length + 1) _ 0 hskipinv hs1len,
      hskipabs, range_takeWhile_eq_filter hs r]
    simp [hR]
  obtain ⟨⟨hbackabs, hbacklast⟩, hbackinv⟩ :=
    backLoop_spec r (l.length + 1) s1 hskipinv hs1len
  rw [hskipabs, range_reverse_drop hs r, ← hR] at hbackabs hbacklast
  have hmain : (initIterMut r l).1.abs ++ ((initIterMut r l).2).toList = R := by
    rw [initIterMut, ← hs1, hbackabs, hbacklast]
    cases hRrev : R.reverse with
    | nil =>
      have : R = [] := by
        have := congrArg List.reverse hRrev
        simpa using this
      rw [this]
      simp
    | cons y ys =>
      have : R = ys.reverse ++ [y] := by
        have := congrArg List.reverse hRrev
        simpa using this
      rw [this]
      simp
  refine ⟨?_, ?_, ?_, rfl⟩
  · exact hmain
  · rw [RangeMut.new]
    simp only
    rw [initIterMut, ← hs1]
    exact hbackinv
  · rw [RangeMut.new]
    simp only
    rw [hcount]

-- RangeMut abstraction -------------------------------------------------------

namespace RangeMut

/-- The entries a RangeMut still has to yield: what the inner iterator holds
followed by the saved last entry. -/
def mid (s : RangeMut K V) : List (K × V) := s.inner.abs ++ s.last.toList

/-- The state invariant of a well-initialized RangeMut: the peekable
invariant, and the yield budget equals the number of pending entries. -/
def good (s : RangeMut K V) : Prop :=
  s.inner.inv ∧ s.spentCnt ≤ s.totalCnt ∧ s.totalCnt - s.spentCnt = s.mid.length

theorem next_spec {s : RangeMut K V} (h : s.good) :
    s.next.1 = s.mid.head? ∧ s.next.2.mid = s.mid.tail ∧ s.next.2.good := by
  obtain ⟨hinv, hle, hcnt⟩ := h
  by_cases hlt : s.spentCnt < s.totalCnt
  · have hmidne : s.mid ≠ [] := by
      intro hc
      rw [hc] at hcnt
      simp at hcnt
      omega
    cases habs : s.inner.abs with
    | nil =>
      obtain ⟨hn1, hn2, hn3⟩ := Peekable.next_nil habs hinv
      cases hlast : s.last with
      | none =>
        exfalso
        apply hmidne
        rw [mid, habs, hlast]
        rfl
      | some e =>
        have hmid : s.mid = [e] := by rw [mid, habs, hlast]; rfl
        rw [next, if_pos hlt]
        rcases hnx : s.inner.next with ⟨o, inner1⟩
        rw [hnx] at hn1 hn2 hn3
        simp only at hn1 hn2 hn3
        subst hn1
        refine ⟨by rw [hmid, hlast]; rfl, ?_, hn3,
          show s.spentCnt + 1 ≤ s.totalCnt by omega, ?_⟩
        · rw [hmid]
          simp only [List.tail_cons]
          simp only [mid, hn2, Option.toList_none, List.append_nil]
        · simp only [mid, hn2, Option.toList_none, List.append_nil]
          rw [hmid] at hcnt
          simp only [List.length_cons, List.length_nil] at hcnt
          simp only [List.length_nil]
          omega
    | cons e rest =>
      obtain ⟨hn1, hn2, hn3⟩ := Peekable.next_cons habs hinv
      have hmid : s.mid = e :: (rest ++ s.last.toList) := by
        rw [mid, habs]
        rfl
      rw [next, if_pos hlt]
      rcases hnx : s.inner.next with ⟨o, inner1⟩
      rw [hnx] at hn1 hn2 hn3
      simp only at hn1 hn2 hn3
      subst hn1
      refine ⟨by rw [hmid]; rfl, ?_, hn3,
        show s.spentCnt + 1 ≤ s.totalCnt by omega, ?_⟩
      · rw [hmid]
        simp only [List.tail_cons]
        simp only [mid, hn2]
      · simp only [mid, hn2]
        rw [hmid] at hcnt
        simp only [List.length_cons, List.length_append] at hcnt
        simp only [List.length_append]
        omega
  · have hmid : s.mid = [] := by
      have h0 : s.totalCnt - s.spentCnt = 0 := by omega
      rw [h0] at hcnt
      exact List.length_eq_zero.mp hcnt.symm
    rw [next, if_neg hlt]
    refine ⟨by rw [hmid]; rfl, ?_, hinv, hle, hcnt⟩
    rw [hmid]
    rfl

theorem nextBack_spec {s : RangeMut K V} (h : s.good) :
    s.nextBack.1 = s.mid.getLast? ∧ s.nextBack.2.mid = s.mid.dropLast
      ∧ s.nextBack.2.good := by
  obtain ⟨hinv, hle, hcnt⟩ := h
  by_cases hlt : s.spentCnt < s.totalCnt
  · have hmidne : s.mid ≠ [] := by
      intro hc
      rw [hc] at hcnt
      simp at hcnt
      omega
    cases hlast : s.last with
    | some e =>
      have hmid : s.mid = s.inner.abs ++ [e] := by rw [mid, hlast]; rfl
      rw [nextBack, if_pos hlt, hlast]
      refine ⟨?_, ?_, hinv,
        show s.spentCnt + 1 ≤ s.totalCnt by omega, ?_⟩
      · rw [hmid, List.getLast?_concat _]
      · rw [hmid, List.dropLast_concat]
        simp only [mid, Option.toList_none, List.append_nil]
      · simp only [mid, Option.toList_none, List.append_nil]
        rw [hmid] at hcnt
        simp only [List.length_append, List.length_cons, List.length_nil] at hcnt
        omega
    | none =>
      have hmid : s.mid = s.inner.abs := by rw [mid, hlast]; simp
      have habsne : s.inner.abs ≠ [] := by rw [← hmid]; exact hmidne
      obtain ⟨ws, e, habs⟩ : ∃ ws e, s.inner.abs = ws ++ [e] := by
        cases habs : s.inner.abs.reverse with
        | nil =>
          exfalso
          apply habsne
          have := congrArg List.reverse habs
          simpa using this
        | cons y ys =>
          refine ⟨ys.reverse, y, ?_⟩
          have := congrArg List.reverse habs
          simpa using this
      obtain ⟨hn1, hn2, hn3⟩ := Peekable.nextBack_concat habs hinv
      rw [nextBack, if_pos hlt, hlast]
      rcases hnx : s.inner.nextBack with ⟨o, inner1⟩
      rw [hnx] at hn1 hn2 hn3
      simp only at hn1 hn2 hn3
      subst hn1
      refine ⟨?_, ?_, hn3,
        show s.spentCnt + 1 ≤ s.totalCnt by omega, ?_⟩
      · rw [hmid, habs, List.getLast?_concat _]
      · rw [hmid, habs, List.dropLast_concat]
        simp only [mid, hn2, Option.toList_none, List.append_nil]
      · simp only [mid, hn2, Option.toList_none, List.append_nil]
        rw [hmid, habs] at hcnt
        simp only [List.length_append, List.length_cons, List.length_nil] at hcnt
        omega
  · have hmid : s.mid = [] := by
      have h0 : s.totalCnt - s.spentCnt = 0 := by omega
      rw [h0] at hcnt
      exact List.length_eq_zero.mp hcnt.symm
    rw [nextBack, if_neg hlt]
    refine ⟨by rw [hmid]; rfl, ?_, hinv, hle, hcnt⟩
    rw [hmid]
    rfl

theorem run_spec :
    ∀ (calls : List Bool) (s : RangeMut K V), s.good →
      (RangeMut.run s calls).1 ++ (RangeMut.run s calls).2.2.mid
          ++ (RangeMut.run s calls).2.1.reverse = s.mid
      ∧ (RangeMut.run s calls).1.length + (RangeMut.run s calls).2.1.length
          = min calls.length s.mid.length
      ∧ (RangeMut.run s calls).2.2.good := by
  intro calls
  induction calls with
  | nil =>
    intro s hg
    refine ⟨by simp [run], by simp [run], hg⟩
  | cons d ds ih =>
    intro s hg
    cases d with
    | true =>
      obtain ⟨hn1, hn2, hn3⟩ := next_spec hg
      obtain ⟨iha, ihb, ihc⟩ := ih s.next.2 hn3
      rw [hn2] at iha ihb
      cases hmid : s.mid with
      | nil =>
        rw [hmid] at hn1
        simp only [List.head?_nil] at hn1
        rw [hmid] at iha ihb
        simp only [List.tail_nil] at iha ihb
        refine ⟨?_, ?_, ihc⟩
        · simp only [run, hn1, Option.toList_none, List.nil_append]
          exact iha
        · simp only [run, hn1, Option.toList_none, List.nil_append,
            List.length_nil, List.length_cons]
          simp only [List.length_nil] at ihb
          omega
      | cons e rest =>
        rw [hmid] at hn1
        simp only [List.head?_cons] at hn1
        rw [hmid] at iha ihb
        simp only [List.tail_cons] at iha ihb
        refine ⟨?_, ?_, ihc⟩
        · simp only [run, hn1, Option.toList_some]
          simp only [List.singleton_append, List.cons_append, List.nil_append]
          rw [iha]
        · simp only [run, hn1, Option.toList_some]
          simp only [List.singleton_append, List.length_cons]
          omega
    | false =>
      obtain ⟨hn1, hn2, hn3⟩ := nextBack_spec hg
      obtain ⟨iha, ihb, ihc⟩ := ih s.nextBack.2 hn3
      rw [hn2] at iha ihb
      cases hmid0 : s.mid.getLast? with
      | none =>
        have hmid : s.mid = [] := by
          cases hm : s.mid with
          | nil => rfl
          | cons x xs =>
            rw [hm] at hmid0
            rw [List.getLast?_eq_getLast _ (by simp)] at hmid0
            cases hmid0
        rw [hmid0] at hn1
        rw [hmid] at iha ihb
        simp only [List.dropLast_nil] at iha ihb
        refine ⟨?_, ?_, ihc⟩
        · simp only [run, hn1, Option.toList_none, List.nil_append]
          rw [hmid]
          simpa using iha
        · simp only [run, hn1, Option.toList_none, List.nil_append,
            List.length_nil, List.length_cons]
          rw [hmid]
          simp only [List.length_nil]
          simp only [List.length_nil] at ihb
          omega
      | some e =>
        have hne : s.mid ≠ [] := by
          intro hc
          rw [hc] at hmid0
          cases hmid0
        have hgl : s.mid.getLast hne = e := by
          have h2 := List.getLast?_eq_getLast s.mid hne
          rw [hmid0] at h2
          exact (Option.some_inj.mp h2).symm
        have hmid : s.mid.dropLast ++ [e] = s.mid := by
          rw [← hgl]
          exact List.dropLast_append_getLast hne
        rw [hmid0] at hn1
        refine ⟨?_, ?_, ihc⟩
        · simp only [run, hn1, Option.toList_some]
          simp only [List.singleton_append, List.reverse_cons]
          conv_rhs => rw [← hmid]
          rw [← List.append_assoc, iha]
        · simp only [run, hn1, Option.toList_some]
          simp only [List.singleton_append, List.length_cons]
          have hlen : s.mid.length = s.mid.dropLast.length + 1 := by
            conv_lhs => rw [← hmid]
            simp
          omega

end RangeMut

-- Shared setup for the RangeMut claims ---------------------------------------

theorem rangeMutNew_good {N : Nat} {m : SgMap K V N} (hs : KSorted m.entries)
    (r : SgBounds K) :
    (RangeMut.new m r).good
    ∧ (RangeMut.new m r).mid = m.entries.filter (fun e => r.contains e.1)
    ∧ (RangeMut.new m r).totalCnt
        = (m.entries.filter (fun e => r.contains e.1)).length := by
  obtain ⟨hmid0, hinv0, htot0, hspc0⟩ := rangeMutNew_spec hs r
  have hmid : (RangeMut.new m r).mid
      = m.entries.filter (fun e => r.contains e.1) := hmid0
  refine ⟨⟨hinv0, ?_, ?_⟩, hmid, htot0⟩
  · rw [hspc0]
    omega
  · rw [hspc0, htot0, hmid]
    omega

-- Claim C1 -------------------------------------------------------------------

/-- Claim C1: for every well-formed map and every valid range specification,
driving the mutable range iterator by any interleaving of forward (next) and
backward (next_back) calls yields: the forward yields are a prefix of the
ascending in-range entry sequence (hence ascending), the backward yields are
the reverse of a suffix of it (hence descending), the total number of yields
is the number of in-range entries capped by the number of calls, and once at
least that many calls are made the forward and backward yields together are
exactly the in-range entries, each exactly once and none outside the
bounds. -/
theorem C1_range_mut_interleaving {N : Nat} (m : SgMap K V N) (hm : m.WF)
    (r : SgBounds K) (hr : r.valid = true) (calls : List Bool) :
    (RangeMut.run (RangeMut.new m r) calls).1
        = (m.entries.filter (fun e => r.contains e.1)).take
            (RangeMut.run (RangeMut.new m r) calls).1.length
    ∧ (RangeMut.run (RangeMut.new m r) calls).2.1.reverse
        = (m.entries.filter (fun e => r.contains e.1)).drop
            ((m.entries.filter (fun e => r.contains e.1)).length
              - (RangeMut.run (RangeMut.new m r) calls).2.1.length)
    ∧ (RangeMut.run (RangeMut.new m r) calls).1.length
          + (RangeMut.run (RangeMut.new m r) calls).2.1.length
        = min calls.length (m.entries.filter (fun e => r.contains e.1)).length
    ∧ ((m.entries.filter (fun e => r.contains e.1)).length ≤ calls.length →
        (RangeMut.run (RangeMut.new m r) calls).1
            ++ (RangeMut.run (RangeMut.new m r) calls).2.1.reverse
          = m.entries.filter (fun e => r.contains e.1)) := by
  obtain ⟨hgood, hmid, _⟩ := rangeMutNew_good hm.1 r
  obtain ⟨hA, hB, _⟩ := RangeMut.run_spec calls (RangeMut.new m r) hgood
  rw [hmid] at hA hB
  have hpre : (RangeMut.run (RangeMut.new m r) calls).1
      <+: m.entries.filter (fun e => r.contains e.1) :=
    ⟨(RangeMut.run (RangeMut.new m r) calls).2.2.mid
      ++ (RangeMut.run (RangeMut.new m r) calls).2.1.reverse,
     by rw [← List.append_assoc]; exact hA⟩
  have hsuf : (RangeMut.run (RangeMut.new m r) calls).2.1.reverse
      <:+ m.entries.filter (fun e => r.contains e.1) :=
    ⟨(RangeMut.run (RangeMut.new m r) calls).1
      ++ (RangeMut.run (RangeMut.new m r) calls).2.2.mid,
     by rw [List.append_assoc]; rw [← List.append_assoc]; exact hA⟩
  refine ⟨List.prefix_iff_eq_take.mp hpre, ?_, hB, ?_⟩
  · have h1 := List.suffix_iff_eq_drop.mp hsuf
    rwa [List.length_reverse] at h1
  · intro hle
    have hlenA := congrArg List.length hA
    simp only [List.length_append, List.length_reverse] at hlenA
    have hminr : min calls.length
        (m.entries.filter (fun e => r.contains e.1)).length
        = (m.entries.filter (fun e => r.contains e.1)).length :=
      min_eq_right hle
    rw [hminr] at hB
    have hmid0 : (RangeMut.run (RangeMut.new m r) calls).2.2.mid.length = 0 := by
      omega
    have hmidnil : (RangeMut.run (RangeMut.new m r) calls).2.2.mid = [] :=
      List.length_eq_zero.mp hmid0
    rw [hmidnil] at hA
    simpa using hA

/-- Claim C1 witness: a concrete three-entry map, the range [1, 3), and an
interleaved next, next_back, next call sequence. -/
theorem C1_range_mut_interleaving_witness :
    (⟨SgTree.node (SgTree.node .leaf 1 10 .leaf) 2 20 (SgTree.node .leaf 3 30 .leaf), 3⟩
        : SgMap Nat Nat 4).WF
    ∧ (SgBounds.mk (SgBound.included 1) (SgBound.excluded 3)).valid = true
    ∧ ((RangeMut.run (RangeMut.new
          (⟨SgTree.node (SgTree.node .leaf 1 10 .leaf) 2 20
              (SgTree.node .leaf 3 30 .leaf), 3⟩ : SgMap Nat Nat 4)
          (SgBounds.mk (SgBound.included 1) (SgBound.excluded 3)))
          [true, false, true]).1
        = (((⟨SgTree.node (SgTree.node .leaf 1 10 .leaf) 2 20
              (SgTree.node .leaf 3 30 .leaf), 3⟩ : SgMap Nat Nat 4)).entries.filter
            (fun e => (SgBounds.mk (SgBound.included 1)
              (SgBound.excluded 3)).contains e.1)).take
            (RangeMut.run (RangeMut.new
              (⟨SgTree.node (SgTree.node .leaf 1 10 .leaf) 2 20
                  (SgTree.node .leaf 3 30 .leaf), 3⟩ : SgMap Nat Nat 4)
              (SgBounds.mk (SgBound.included 1) (SgBound.excluded 3)))
              [true, false, true]).1.length) :=
  ⟨⟨by decide, by decide⟩, by decide,
    (C1_range_mut_interleaving
      (⟨SgTree.node (SgTree.node .leaf 1 10 .leaf) 2 20
          (SgTree.node .leaf 3 30 .leaf), 3⟩ : SgMap Nat Nat 4)
      ⟨by decide, by decide⟩
      (SgBounds.mk (SgBound.included 1) (SgBound.excluded 3)) (by decide)
      [true, false, true]).1⟩

-- Claim C9 -------------------------------------------------------------------

/-- Claim C9: the mutable range iterator never yields an entry outside the
bounds, in either direction, and once it has yielded its precomputed in-range
count every further next or next_back call returns None (the iterator is
fused). -/
theorem C9_range_mut_fused {N : Nat} (m : SgMap K V N) (hm : m.WF)
    (r : SgBounds K) (calls : List Bool) :
    (∀ e ∈ (RangeMut.run (RangeMut.new m r) calls).1, r.contains e.1 = true)
    ∧ (∀ e ∈ (RangeMut.run (RangeMut.new m r) calls).2.1, r.contains e.1 = true)
    ∧ ((RangeMut.new m r).totalCnt ≤ calls.length →
        ((RangeMut.run (RangeMut.new m r) calls).2.2.next.1 = none
          ∧ (RangeMut.run (RangeMut.new m r) calls).2.2.nextBack.1 = none)) := by
  obtain ⟨hgood, hmid, htot⟩ := rangeMutNew_good hm.1 r
  obtain ⟨hA, hB, hgood2⟩ := RangeMut.run_spec calls (RangeMut.new m r) hgood
  rw [hmid] at hA hB
  have hmemf : ∀ e ∈ (RangeMut.run (RangeMut.new m r) calls).1,
      e ∈ m.entries.filter (fun x => r.contains x.1) := by
    intro e he
    rw [← hA]
    simp only [List.mem_append]
    exact Or.inl (Or.inl he)
  have hmemb : ∀ e ∈ (RangeMut.run (RangeMut.new m r) calls).2.1,
      e ∈ m.entries.filter (fun x => r.contains x.1) := by
    intro e he
    rw [← hA]
    simp only [List.mem_append, List.mem_reverse]
    exact Or.inr he
  refine ⟨fun e he => List.of_mem_filter (p := fun x : K × V => r.contains x.1)
      (hmemf e he),
    fun e he => List.of_mem_filter (p := fun x : K × V => r.contains x.1)
      (hmemb e he), ?_⟩
  intro hle
  rw [htot] at hle
  have hlenA := congrArg List.length hA
  simp only [List.length_append, List.length_reverse] at hlenA
  have hminr : min calls.length
      (m.entries.filter (fun e => r.contains e.1)).length
      = (m.entries.filter (fun e => r.contains e.1)).length :=
    min_eq_right hle
  rw [hminr] at hB
  have hmidnil : (RangeMut.run (RangeMut.new m r) calls).2.2.mid = [] :=
    List.length_eq_zero.mp (by omega)
  obtain ⟨hf1, _, _⟩ := RangeMut.next_spec hgood2
  obtain ⟨hb1, _, _⟩ := RangeMut.nextBack_spec hgood2
  rw [hmidnil] at hf1 hb1
  simp only [List.head?_nil] at hf1
  simp only [List.getLast?_nil] at hb1
  exact ⟨hf1, hb1⟩

/-- Claim C9 witness: the same concrete map and range, with more calls than
in-range entries. -/
theorem C9_range_mut_fused_witness :
    (⟨SgTree.node (SgTree.node .leaf 1 10 .leaf) 2 20 (SgTree.node .leaf 3 30 .leaf), 3⟩
        : SgMap Nat Nat 4).WF
    ∧ (RangeMut.new
        (⟨SgTree.node (SgTree.node .leaf 1 10 .leaf) 2 20
            (SgTree.node .leaf 3 30 .leaf), 3⟩ : SgMap Nat Nat 4)
        (SgBounds.mk (SgBound.included 1) (SgBound.excluded 3))).totalCnt
        ≤ ([true, false, true] : List Bool).length
    ∧ ((RangeMut.run (RangeMut.new
          (⟨SgTree.node (SgTree.node .leaf 1 10 .leaf) 2 20
              (SgTree.node .leaf 3 30 .leaf), 3⟩ : SgMap Nat Nat 4)
          (SgBounds.mk (SgBound.included 1) (SgBound.excluded 3)))
          [true, false, true]).2.2.next.1 = none
        ∧ (RangeMut.run (RangeMut.new
            (⟨SgTree.node (SgTree.node .leaf 1 10 .leaf) 2 20
                (SgTree.node .leaf 3 30 .leaf), 3⟩ : SgMap Nat Nat 4)
            (SgBounds.mk (SgBound.included 1) (SgBound.excluded 3)))
            [true, false, true]).2.2.nextBack.1 = none) :=
  ⟨⟨by decide, by decide⟩, by decide,
    (C9_range_mut_fused
      (⟨SgTree.node (SgTree.node .leaf 1 10 .leaf) 2 20
          (SgTree.node .leaf 3 30 .leaf), 3⟩ : SgMap Nat Nat 4)
      ⟨by decide, by decide⟩
      (SgBounds.mk (SgBound.included 1) (SgBound.excluded 3))
      [true, false, true]).2.2 (by decide)⟩

-- Claim C5 -------------------------------------------------------------------

/-- Claim C5: calling range with a lower-bound key strictly greater than the
upper-bound key panics with exactly the message "range start is greater than
range end"; calling range with both bounds excluded on one equal key panics
with exactly "range start and end are equal and excluded"; a valid range
never panics. -/
theorem C5_range_panic_diagnostics {N : Nat} (m : SgMap K V N) (r : SgBounds K) :
    (∀ s e, r.lo.key? = some s → r.hi.key? = some e → e < s →
      m.range r = .error "range start is greater than range end")
    ∧ (∀ s e, r.lo.key? = some s → r.hi.key? = some e → s = e →
        r.lo.excl = true → r.hi.excl = true →
      m.range r = .error "range start and end are equal and excluded")
    ∧ (r.valid = true → ∀ msg, m.range r ≠ .error msg) := by
  rcases r with ⟨lo, hi⟩
  refine ⟨?_, ?_, ?_⟩
  · intro s e hls hhe hlt
    cases lo <;> cases hi <;>
      simp_all [SgMap.range, SgBounds.check, SgBound.key?, SgBound.excl]
  · intro s e hls hhe hse hxl hxh
    cases lo <;> cases hi <;>
      simp_all [SgMap.range, SgBounds.check, SgBound.key?, SgBound.excl,
        lt_irrefl]
  · intro hv msg
    cases lo <;> cases hi <;>
      simp_all [SgMap.range, SgBounds.check, SgBound.key?, SgBound.excl,
        SgBounds.valid] <;>
      first
        | (rw [if_neg (not_lt.mpr hv)]; simp)
        | (rw [if_neg (not_lt.mpr hv.1)]; simp)

/-- Claim C5 witness: the set {3,5,8} of the test-suite with its two invalid
ranges, yielding the two exact diagnostics, and a valid range that does not
panic. -/
theorem C5_range_panic_diagnostics_witness :
    ((⟨SgTree.node (SgTree.node .leaf 3 () .leaf) 5 ()
          (SgTree.node .leaf 8 () .leaf), 3⟩ : SgMap Nat Unit 10).range
        (SgBounds.mk (SgBound.included 8) (SgBound.included 3))
      = .error "range start is greater than range end")
    ∧ ((⟨SgTree.node (SgTree.node .leaf 3 () .leaf) 5 ()
          (SgTree.node .leaf 8 () .leaf), 3⟩ : SgMap Nat Unit 10).range
        (SgBounds.mk (SgBound.excluded 5) (SgBound.excluded 5))
      = .error "range start and end are equal and excluded")
    ∧ ((⟨SgTree.node (SgTree.node .leaf 3 () .leaf) 5 ()
          (SgTree.node .leaf 8 () .leaf), 3⟩ : SgMap Nat Unit 10).range
        (SgBounds.mk (SgBound.included 3) (SgBound.excluded 9))
      ≠ .error "range start is greater than range end") :=
  ⟨(C5_range_panic_diagnostics
      (⟨SgTree.node (SgTree.node .leaf 3 () .leaf) 5 ()
          (SgTree.node .leaf 8 () .leaf), 3⟩ : SgMap Nat Unit 10)
      (SgBounds.mk (SgBound.included 8) (SgBound.included 3))).1
      8 3 rfl rfl (by decide),
   (C5_range_panic_diagnostics
      (⟨SgTree.node (SgTree.node .leaf 3 () .leaf) 5 ()
          (SgTree.node .leaf 8 () .leaf), 3⟩ : SgMap Nat Unit 10)
      (SgBounds.mk (SgBound.excluded 5) (SgBound.excluded 5))).2.1
      5 5 rfl rfl rfl rfl rfl,
   (C5_range_panic_diagnostics
      (⟨SgTree.node (SgTree.node .leaf 3 () .leaf) 5 ()
          (SgTree.node .leaf 8 () .leaf), 3⟩ : SgMap Nat Unit 10)
      (SgBounds.mk (SgBound.included 3) (SgBound.excluded 9))).2.2
      (by decide) "range start is greater than range end"⟩

-- Claim C4: the immutable range iterator ------------------------------------

/-- Translated from src/src/map_types.rs Range: the immutable sub-range
iterator walks the precomputed in-range node list (an ArrayVec of node
indices, shallowly the entries themselves); next pops the front and
next_back pops the back. -/
structure RangeIter (K V : Type) where
  elems : List (K × V)
deriving DecidableEq, Repr

/-- Range::next. -/
def RangeIter.next (s : RangeIter K V) : Option (K × V) × RangeIter K V :=
  match s.elems with
  | [] => (none, s)
  | e :: t => (some e, ⟨t⟩)

/-- Range::next_back. -/
def RangeIter.nextBack (s : RangeIter K V) : Option (K × V) × RangeIter K V :=
  match s.elems.getLast? with
  | none => (none, s)
  | some e => (some e, ⟨s.elems.dropLast⟩)

/-- Drain the range iterator forward: repeated next until None. -/
def RangeIter.forwardF : Nat → RangeIter K V → List (K × V)
  | 0, _ => []
  | fuel + 1, s =>
    match s.next with
    | (none, _) => []
    | (some e, s1) => e :: RangeIter.forwardF fuel s1

/-- Drain the range iterator backward: repeated next_back until None. -/
def RangeIter.backwardF : Nat → RangeIter K V → List (K × V)
  | 0, _ => []
  | fuel + 1, s =>
    match s.nextBack with
    | (none, _) => []
    | (some e, s1) => e :: RangeIter.backwardF fuel s1

theorem RangeIter.forwardF_eq :
    ∀ (fuel : Nat) (L : List (K × V)), L.length ≤ fuel →
      RangeIter.forwardF fuel ⟨L⟩ = L := by
  intro fuel
  induction fuel with
  | zero =>
    intro L h
    rw [List.length_eq_zero.mp (Nat.le_zero.mp h)]
    rfl
  | succ fuel ih =>
    intro L h
    cases L with
    | nil => rfl
    | cons e t =>
      rw [forwardF]
      simp only [next]
      rw [ih t (by simp only [List.length_cons] at h; omega)]

theorem RangeIter.backwardF_eq :
    ∀ (fuel : Nat) (L : List (K × V)), L.length ≤ fuel →
      RangeIter.backwardF fuel ⟨L⟩ = L.reverse := by
  intro fuel
  induction fuel with
  | zero =>
    intro L h
    rw [List.length_eq_zero.mp (Nat.le_zero.mp h)]
    rfl
  | succ fuel ih =>
    intro L h
    cases hrev : L.reverse with
    | nil =>
      have : L = [] := by
        have := congrArg List.reverse hrev
        simpa using this
      rw [this]
      rfl
    | cons e ws =>
      have hL : L = ws.reverse ++ [e] := by
        have := congrArg List.reverse hrev
        simpa using this
      rw [backwardF]
      simp only [nextBack]
      rw [hL]
      rw [show (ws.reverse ++ [e]).getLast? = some e from List.getLast?_concat _]
      simp only [List.dropLast_concat]
      rw [ih ws.reverse (by
        have hlen := congrArg List.length hL
        simp only [List.length_append, List.length_reverse, List.length_cons,
          List.length_nil] at hlen
        simp only [List.length_reverse]
        omega)]
      simp

/-- Claim C4: for every well-formed map and keys lo ≤ hi, range over
[lo, hi) succeeds and yields precisely the stored entries whose keys satisfy
lo ≤ k < hi, in ascending order; and for arbitrary valid bounds, the yielded
list is exactly the stored entries satisfying both bounds, key-sorted,
produced ascending by repeated next and descending by repeated next_back. -/
theorem C4_range_yields {N : Nat} (m : SgMap K V N) (hm : m.WF) (lo hi : K)
    (hlh : lo ≤ hi) :
    (m.range (SgBounds.mk (SgBound.included lo) (SgBound.excluded hi))
      = .ok (m.entries.filter (fun e => decide (lo ≤ e.1) && decide (e.1 < hi))))
    ∧ ∀ (r : SgBounds K) (L : List (K × V)), m.range r = .ok L →
        L = m.entries.filter (fun e => r.contains e.1)
        ∧ KSorted L
        ∧ RangeIter.forwardF L.length ⟨L⟩ = L
        ∧ RangeIter.backwardF L.length ⟨L⟩ = L.reverse := by
  constructor
  · have hchk : (SgBounds.mk (SgBound.included lo) (SgBound.excluded hi)).check
        = .ok () := by
      rw [SgBounds.check]
      simp only [SgBound.key?, SgBound.excl]
      rw [if_neg (not_lt.mpr hlh)]
      simp
    rw [SgMap.range, hchk]
    rw [SgTree.rangeGo_eq_filter hm.1]
    rfl
  · intro r L hok
    have hL := SgMap.range_ok hm.1 hok
    refine ⟨hL, ?_, RangeIter.forwardF_eq L.length L le_rfl,
      RangeIter.backwardF_eq L.length L le_rfl⟩
    rw [hL]
    exact List.Pairwise.filter _ hm.1

/-- Claim C4 witness: the test-suite set {1,5,3,7,9} and the range 3..8,
yielding [3,5,7]. -/
theorem C4_range_yields_witness :
    (⟨SgTree.node (SgTree.node (SgTree.node .leaf 1 () .leaf) 3 () .leaf) 5 ()
        (SgTree.node .leaf 7 () (SgTree.node .leaf 9 () .leaf)), 5⟩
      : SgMap Nat Unit 10).WF
    ∧ 3 ≤ 8
    ∧ ((⟨SgTree.node (SgTree.node (SgTree.node .leaf 1 () .leaf) 3 () .leaf) 5 ()
          (SgTree.node .leaf 7 () (SgTree.node .leaf 9 () .leaf)), 5⟩
        : SgMap Nat Unit 10).range
          (SgBounds.mk (SgBound.included 3) (SgBound.excluded 8))
      = .ok ((⟨SgTree.node (SgTree.node (SgTree.node .leaf 1 () .leaf) 3 () .leaf)
            5 () (SgTree.node .leaf 7 () (SgTree.node .leaf 9 () .leaf)), 5⟩
          : SgMap Nat Unit 10).entries.filter
            (fun e => decide (3 ≤ e.1) && decide (e.1 < 8)))) :=
  ⟨⟨by decide, by decide⟩, by decide,
    (C4_range_yields
      (⟨SgTree.node (SgTree.node (SgTree.node .leaf 1 () .leaf) 3 () .leaf) 5 ()
          (SgTree.node .leaf 7 () (SgTree.node .leaf 9 () .leaf)), 5⟩
        : SgMap Nat Unit 10)
      ⟨by decide, by decide⟩ 3 8 (by decide)).1⟩

-- The set façade --------------------------------------------------------------

/-- Modelled from the spec: SgSet is the thin set façade over the map with
unit values (crate::set, source not in src/). -/
def SgSet (K : Type) (N : Nat) : Type := SgMap K Unit N

namespace SgSet

variable {N : Nat}

/-- SgSet::new. -/
def empty : SgSet K N := SgMap.empty

/-- The ascending key sequence of the set: what iter yields. -/
def keys (s : SgSet K N) : List K := SgMap.entries s |>.map Prod.fst

/-- SgSet::len. -/
def len (s : SgSet K N) : Nat := SgMap.len s

/-- Set well-formedness: the underlying map is well-formed. -/
def WF (s : SgSet K N) : Prop := SgMap.WF s

/-- Modelled from the spec: SgSet::try_insert: delegates to the map with a
unit value; Ok(true) when the key was newly inserted, Ok(false) when it was
already present, the capacity error otherwise. -/
def tryInsert (s : SgSet K N) (k : K) : Except SgError (Bool × SgSet K N) :=
  match SgMap.tryInsert s k () with
  | .ok p => .ok (p.2.isNone, p.1)
  | .error e => .error e

/-- Replay a sequence of fallible set insertions, collecting each outcome;
a failed insertion leaves the set as it was (the capacity check precedes any
mutation). -/
def insertSeq (s : SgSet K N) : List K → List (Except SgError Bool) × SgSet K N
  | [] => ([], s)
  | k :: ks =>
    match s.tryInsert k with
    | .ok p =>
      let q := insertSeq p.2 ks
      (.ok p.1 :: q.1, q.2)
    | .error e =>
      let q := insertSeq s ks
      (.error e :: q.1, q.2)

end SgSet

-- Claim C3 -------------------------------------------------------------------

/-- Claim C3: on a set of capacity 3, try_insert of the three distinct absent
keys 1, 2, 3 returns Ok(true) each time; try_insert of the already-present
key 1 on the now-full set returns Ok(false); try_insert of the fourth
distinct key 4 returns Err(StackCapacityExceeded), and the set afterwards
still holds exactly the keys 1, 2, 3. -/
theorem C3_try_insert_capacity :
    ((SgSet.empty : SgSet Nat 3).insertSeq [1, 2, 3, 1, 4]).1
      = [.ok true, .ok true, .ok true, .ok false,
          .error SgError.stackCapacityExceeded]
    ∧ (((SgSet.empty : SgSet Nat 3).insertSeq [1, 2, 3, 1, 4]).2).keys
      = [1, 2, 3] := by
  constructor
  · rfl
  · rfl

-- Claim C10 ------------------------------------------------------------------

theorem ksorted_iff_keys {l : List (K × V)} :
    KSorted l ↔ (l.map Prod.fst).Pairwise (· < ·) := by
  rw [KSorted, List.pairwise_map]
  rfl

theorem ListMap.setVal_mem_ne {k : K} {v : V} {l : List (K × V)} {e : K × V}
    (he : e ∈ l) (hne : e.1 ≠ k) : e ∈ (ListMap.setVal k v l).2 := by
  induction l with
  | nil => cases he
  | cons f t ih =>
    by_cases hf : f.1 = k
    · simp only [ListMap.setVal, if_pos hf]
      rcases List.mem_cons.mp he with he | he
      · exact absurd (he ▸ hf) hne
      · exact List.mem_cons_of_mem _ he
    · simp only [ListMap.setVal, if_neg hf]
      rcases List.mem_cons.mp he with he | he
      · rw [he]; exact List.mem_cons_self f _
      · exact List.mem_cons_of_mem _ (ih he)

theorem ListMap.get_setVal_self {k : K} (v : V) {l : List (K × V)}
    (h : (ListMap.get k l).isSome) :
    ListMap.get k (ListMap.setVal k v l).2 = some v := by
  induction l with
  | nil => simp [ListMap.get] at h
  | cons f t ih =>
    by_cases hf : f.1 = k
    · simp [ListMap.setVal, if_pos hf, ListMap.get]
    · rw [ListMap.get, if_neg hf] at h
      simp only [ListMap.setVal, if_neg hf]
      rw [ListMap.get, if_neg hf]
      exact ih h

/-- Claim C10: for every occupied entry view (the key is present in the
well-formed map), OccupiedEntry::insert returns exactly the previously stored
value and stores the new value in its place; the key set, the map length,
and every other key-value pair are unchanged, and the new value is found
under the entry's key. -/
theorem C10_occupied_entry_insert {N : Nat} (m : SgMap K V N) (hm : m.WF)
    (k : K) (v : V) (hocc : m.containsKey k = true) :
    (m.root.replaceVal k v).1 = m.get k
    ∧ (m.root.replaceVal k v).2.toList.map Prod.fst = m.entries.map Prod.fst
    ∧ (m.root.replaceVal k v).2.toList.length = m.len
    ∧ (∀ e ∈ m.entries, e.1 ≠ k → e ∈ (m.root.replaceVal k v).2.toList)
    ∧ (m.root.replaceVal k v).2.find k = some v := by
  have hs := hm.1
  have hrepl := SgTree.replaceVal_spec hs k v
  rw [Prod.ext_iff] at hrepl
  have hfst : (m.root.replaceVal k v).1 = (ListMap.setVal k v m.entries).1 := by
    simpa using hrepl.1
  have hsnd : (m.root.replaceVal k v).2.toList = (ListMap.setVal k v m.entries).2 := by
    simpa using hrepl.2
  have hget : (ListMap.get k m.entries).isSome := by
    rw [SgMap.containsKey, SgMap.get_eq hs] at hocc
    exact hocc
  have hkeys : (m.root.replaceVal k v).2.toList.map Prod.fst
      = m.entries.map Prod.fst := by
    rw [hsnd]
    exact ListMap.setVal_keys k v m.entries
  have hsorted2 : KSorted (m.root.replaceVal k v).2.toList := by
    rw [ksorted_iff_keys, hkeys, ← ksorted_iff_keys]
    exact hs
  refine ⟨?_, hkeys, ?_, ?_, ?_⟩
  · rw [hfst, ListMap.setVal_fst, SgMap.get_eq hs]
  · have := congrArg List.length hkeys
    simpa [SgMap.len, SgMap.entries] using this
  · intro e he hne
    rw [hsnd]
    exact ListMap.setVal_mem_ne he hne
  · rw [SgTree.find_eq_get hsorted2, hsnd]
    exact ListMap.get_setVal_self v hget

/-- Claim C10 witness: replacing the value under key 2 of a concrete
three-entry map. -/
theorem C10_occupied_entry_insert_witness :
    (⟨SgTree.node (SgTree.node .leaf 1 10 .leaf) 2 20 (SgTree.node .leaf 3 30 .leaf), 3⟩
        : SgMap Nat Nat 4).WF
    ∧ (⟨SgTree.node (SgTree.node .leaf 1 10 .leaf) 2 20
          (SgTree.node .leaf 3 30 .leaf), 3⟩ : SgMap Nat Nat 4).containsKey 2 = true
    ∧ ((⟨SgTree.node (SgTree.node .leaf 1 10 .leaf) 2 20
            (SgTree.node .leaf 3 30 .leaf), 3⟩ : SgMap Nat Nat 4).root.replaceVal 2 99).1
      = (⟨SgTree.node (SgTree.node .leaf 1 10 .leaf) 2 20
            (SgTree.node .leaf 3 30 .leaf), 3⟩ : SgMap Nat Nat 4).get 2 :=
  ⟨⟨by decide, by decide⟩, by decide,
    (C10_occupied_entry_insert
      (⟨SgTree.node (SgTree.node .leaf 1 10 .leaf) 2 20
          (SgTree.node .leaf 3 30 .leaf), 3⟩ : SgMap Nat Nat 4)
      ⟨by decide, by decide⟩ 2 99 (by decide)).1⟩

-- Claim C2 -------------------------------------------------------------------

theorem ListMap.keys_insert {k' k : K} (v : V) (l : List (K × V)) :
    k' ∈ (ListMap.insert k v l).1.map Prod.fst
      ↔ k' = k ∨ k' ∈ l.map Prod.fst := by
  induction l with
  | nil => simp [ListMap.insert]
  | cons e t ih =>
    by_cases h1 : k < e.1
    · simp [ListMap.insert, if_pos h1]
    · by_cases h2 : e.1 < k
      · simp only [ListMap.insert, if_neg h1, if_pos h2, List.map_cons,
          List.mem_cons, ih]
        tauto
      · have hek : e.1 = k := le_antisymm (not_lt.mp h1) (not_lt.mp h2)
        simp only [ListMap.insert, if_neg h1, if_neg h2, List.map_cons,
          List.mem_cons]
        rw [hek]
        tauto

theorem ListMap.foldl_insert_ksorted (l : List (K × V)) :
    ∀ s : List (K × V), KSorted s →
      KSorted (l.foldl (fun acc e => (ListMap.insert e.1 e.2 acc).1) s) := by
  induction l with
  | nil => intro s hs; exact hs
  | cons e t ih =>
    intro s hs
    exact ih _ (ListMap.insert_ksorted hs)

theorem ListMap.foldl_insert_mem_keys (l : List (K × V)) :
    ∀ (s : List (K × V)) (k : K),
      k ∈ (l.foldl (fun acc e => (ListMap.insert e.1 e.2 acc).1) s).map Prod.fst
        ↔ k ∈ s.map Prod.fst ∨ k ∈ l.map Prod.fst := by
  induction l with
  | nil => intro s k; simp
  | cons e t ih =>
    intro s k
    simp only [List.foldl_cons, ih, ListMap.keys_insert, List.map_cons,
      List.mem_cons]
    tauto

theorem SgMap.foldRawInsert_spec {N : Nat} (l : List (K × V)) :
    ∀ a : SgMap K V N, KSorted a.entries →
      (l.foldl (fun m e => (m.rawInsert e.1 e.2).1) a).entries
        = l.foldl (fun s e => (ListMap.insert e.1 e.2 s).1) a.entries
      ∧ KSorted (l.foldl (fun m e => (m.rawInsert e.1 e.2).1) a).entries := by
  induction l with
  | nil => intro a hs; exact ⟨rfl, hs⟩
  | cons e t ih =>
    intro a hs
    simp only [List.foldl_cons]
    obtain ⟨h1, h2⟩ := ih (a.rawInsert e.1 e.2).1 (rawInsert_ksorted hs e.1 e.2)
    refine ⟨?_, h2⟩
    rw [h1, rawInsert_entries hs]

/-- Claim C2: for well-formed sets A and B, try_append checks the combined
size (the number of distinct keys of the union) against the capacity before
any mutation: when it fits, the result is Ok, the destination holds exactly
the union of the two original key collections in strictly ascending order and
the source is empty; when it would exceed the capacity the result is exactly
Err(StackCapacityExceeded) (and, the check preceding any mutation, both
operands are untouched). -/
theorem C2_append_atomicity {N : Nat} (a b : SgSet K N) (ha : a.WF) (hb : b.WF) :
    (∀ a2 b2, SgMap.tryAppend a b = .ok (a2, b2) →
      (SgSet.keys a2).Pairwise (· < ·)
      ∧ (∀ k, k ∈ SgSet.keys a2 ↔ k ∈ SgSet.keys a ∨ k ∈ SgSet.keys b)
      ∧ SgSet.len b2 = 0)
    ∧ (∀ e, SgMap.tryAppend a b = .error e → e = .stackCapacityExceeded)
    ∧ ((SgMap.tryAppend a b).isOk
        ↔ SgMap.len a
            + ((SgMap.entries b).filter (fun e => ! SgMap.containsKey a e.1)).length
          ≤ N) := by
  refine ⟨?_, ?_, ?_⟩
  · intro a2 b2 hok
    rw [SgMap.tryAppend] at hok
    by_cases hcap : N < SgMap.len a
        + ((SgMap.entries b).filter (fun e => ! SgMap.containsKey a e.1)).length
    · rw [if_pos hcap] at hok
      cases hok
    · rw [if_neg hcap] at hok
      simp only [Except.ok.injEq, Prod.mk.injEq] at hok
      obtain ⟨ha2, hb2⟩ := hok
      subst ha2
      subst hb2
      obtain ⟨hfold, hsorted⟩ :=
        SgMap.foldRawInsert_spec (N := N) (SgMap.entries b) a ha.1
      refine ⟨?_, ?_, ?_⟩
      · rw [SgSet.keys, ← ksorted_iff_keys]
        exact hsorted
      · intro k
        simp only [SgSet.keys]
        rw [hfold]
        exact ListMap.foldl_insert_mem_keys (SgMap.entries b) (SgMap.entries a) k
      · rfl
  · intro e herr
    cases e
    rfl
  · rw [SgMap.tryAppend]
    by_cases hcap : N < SgMap.len a
        + ((SgMap.entries b).filter (fun e => ! SgMap.containsKey a e.1)).length
    · rw [if_pos hcap]
      constructor
      · intro hc
        simp [Except.isOk, Except.toBool] at hc
      · intro hle
        exfalso
        omega
    · rw [if_neg hcap]
      constructor
      · intro _
        omega
      · intro _
        rfl

/-- Claim C2 witness: appending {4,5,6} to {1,2,3} with capacity 6 succeeds
with the ascending union and empties the source. -/
theorem C2_append_atomicity_witness :
    (⟨SgTree.node (SgTree.node .leaf 1 () .leaf) 2 () (SgTree.node .leaf 3 () .leaf), 3⟩
        : SgSet Nat 6).WF
    ∧ (⟨SgTree.node (SgTree.node .leaf 4 () .leaf) 5 () (SgTree.node .leaf 6 () .leaf), 3⟩
        : SgSet Nat 6).WF
    ∧ ((SgMap.tryAppend
          (⟨SgTree.node (SgTree.node .leaf 1 () .leaf) 2 ()
              (SgTree.node .leaf 3 () .leaf), 3⟩ : SgSet Nat 6)
          (⟨SgTree.node (SgTree.node .leaf 4 () .leaf) 5 ()
              (SgTree.node .leaf 6 () .leaf), 3⟩ : SgSet Nat 6)).isOk
        ↔ SgMap.len (⟨SgTree.node (SgTree.node .leaf 1 () .leaf) 2 ()
              (SgTree.node .leaf 3 () .leaf), 3⟩ : SgSet Nat 6)
            + ((SgMap.entries (⟨SgTree.node (SgTree.node .leaf 4 () .leaf) 5 ()
                  (SgTree.node .leaf 6 () .leaf), 3⟩ : SgSet Nat 6)).filter
                (fun e => ! SgMap.containsKey
                  (⟨SgTree.node (SgTree.node .leaf 1 () .leaf) 2 ()
                      (SgTree.node .leaf 3 () .leaf), 3⟩ : SgSet Nat 6) e.1)).length
          ≤ 6) :=
  ⟨⟨by decide, by decide⟩, ⟨by decide, by decide⟩,
    (C2_append_atomicity
      (⟨SgTree.node (SgTree.node .leaf 1 () .leaf) 2 ()
          (SgTree.node .leaf 3 () .leaf), 3⟩ : SgSet Nat 6)
      (⟨SgTree.node (SgTree.node .leaf 4 () .leaf) 5 ()
          (SgTree.node .leaf 6 () .leaf), 3⟩ : SgSet Nat 6)
      ⟨by decide, by decide⟩ ⟨by decide, by decide⟩).2.2⟩

/- Set algebra: union, intersection, difference and symmetric_difference are
merge-walks of the two ascending key iterators (crate::set, not under src/,
so modelled from the spec). The walks are written with explicit fuel so that
they compute by structural recursion. -/

/-- Modelled from the spec: the union merge-walk of two ascending key lists,
with fuel. -/
def mergeUnionF : Nat → List K → List K → List K
  | 0, _, _ => []
  | _ + 1, [], ys => ys
  | _ + 1, x :: xs, [] => x :: xs
  | n + 1, x :: xs, y :: ys =>
    if x < y then x :: mergeUnionF n xs (y :: ys)
    else if y < x then y :: mergeUnionF n (x :: xs) ys
    else x :: mergeUnionF n xs ys

/-- Modelled from the spec: the intersection merge-walk, with fuel. -/
def mergeInterF : Nat → List K → List K → List K
  | 0, _, _ => []
  | _ + 1, [], _ => []
  | _ + 1, _ :: _, [] => []
  | n + 1, x :: xs, y :: ys =>
    if x < y then mergeInterF n xs (y :: ys)
    else if y < x then mergeInterF n (x :: xs) ys
    else x :: mergeInterF n xs ys

/-- Modelled from the spec: the difference merge-walk, with fuel. -/
def mergeDiffF : Nat → List K → List K → List K
  | 0, _, _ => []
  | _ + 1, [], _ => []
  | _ + 1, x :: xs, [] => x :: xs
  | n + 1, x :: xs, y :: ys =>
    if x < y then x :: mergeDiffF n xs (y :: ys)
    else if y < x then mergeDiffF n (x :: xs) ys
    else mergeDiffF n xs ys

/-- Modelled from the spec: the symmetric-difference merge-walk, with fuel. -/
def mergeSymmF : Nat → List K → List K → List K
  | 0, _, _ => []
  | _ + 1, [], ys => ys
  | _ + 1, x :: xs, [] => x :: xs
  | n + 1, x :: xs, y :: ys =>
    if x < y then x :: mergeSymmF n xs (y :: ys)
    else if y < x then y :: mergeSymmF n (x :: xs) ys
    else mergeSymmF n xs ys

theorem mergeUnionF_spec : ∀ (n : Nat) (xs ys : List K),
    xs.length + ys.length ≤ n →
    xs.Pairwise (· < ·) → ys.Pairwise (· < ·) →
    (∀ k, k ∈ mergeUnionF n xs ys ↔ k ∈ xs ∨ k ∈ ys)
    ∧ (mergeUnionF n xs ys).Pairwise (· < ·) := by
  intro n
  induction n with
  | zero =>
    intro xs ys hlen _ _
    have hx : xs = [] := List.eq_nil_of_length_eq_zero (by omega)
    have hy : ys = [] := List.eq_nil_of_length_eq_zero (by omega)
    subst hx; subst hy
    simp [mergeUnionF]
  | succ n ih =>
    intro xs ys hlen hxs hys
    cases xs with
    | nil =>
      refine ⟨fun k => by simp [mergeUnionF], ?_⟩
      simpa [mergeUnionF] using hys
    | cons x xs =>
      cases ys with
      | nil =>
        refine ⟨fun k => by simp [mergeUnionF], ?_⟩
        simpa [mergeUnionF] using hxs
      | cons y ys =>
        simp only [List.length_cons] at hlen
        rcases lt_trichotomy x y with h | h | h
        · simp only [mergeUnionF, if_pos h]
          obtain ⟨hmem, hsort⟩ := ih xs (y :: ys)
            (by simp only [List.length_cons]; omega) hxs.of_cons hys
          refine ⟨?_, ?_⟩
          · intro k
            simp only [List.mem_cons, hmem k, List.mem_cons]
            tauto
          · rw [List.pairwise_cons]
            refine ⟨?_, hsort⟩
            intro b hb
            rcases (hmem b).mp hb with hbx | hby
            · exact List.rel_of_pairwise_cons hxs hbx
            · rcases List.mem_cons.mp hby with rfl | hby2
              · exact h
              · exact h.trans (List.rel_of_pairwise_cons hys hby2)
        · subst h
          simp only [mergeUnionF, if_neg (lt_irrefl x)]
          obtain ⟨hmem, hsort⟩ := ih xs ys
            (by omega) hxs.of_cons hys.of_cons
          refine ⟨?_, ?_⟩
          · intro k
            simp only [List.mem_cons, hmem k]
            tauto
          · rw [List.pairwise_cons]
            refine ⟨?_, hsort⟩
            intro b hb
            rcases (hmem b).mp hb with hbx | hby
            · exact List.rel_of_pairwise_cons hxs hbx
            · exact List.rel_of_pairwise_cons hys hby
        · simp only [mergeUnionF, if_neg (lt_asymm h), if_pos h]
          obtain ⟨hmem, hsort⟩ := ih (x :: xs) ys
            (by simp only [List.length_cons]; omega) hxs hys.of_cons
          refine ⟨?_, ?_⟩
          · intro k
            simp only [List.mem_cons, hmem k, List.mem_cons]
            tauto
          · rw [List.pairwise_cons]
            refine ⟨?_, hsort⟩
            intro b hb
            rcases (hmem b).mp hb with hbx | hby
            · rcases List.mem_cons.mp hbx with rfl | hbx2
              · exact h
              · exact h.trans (List.rel_of_pairwise_cons hxs hbx2)
            · exact List.rel_of_pairwise_cons hys hby

theorem mergeInterF_spec : ∀ (n : Nat) (xs ys : List K),
    xs.length + ys.length ≤ n →
    xs.Pairwise (· < ·) → ys.Pairwise (· < ·) →
    (∀ k, k ∈ mergeInterF n xs ys ↔ k ∈ xs ∧ k ∈ ys)
    ∧ (mergeInterF n xs ys).Pairwise (· < ·) := by
  intro n
  induction n with
  | zero =>
    intro xs ys hlen _ _
    have hx : xs = [] := List.eq_nil_of_length_eq_zero (by omega)
    have hy : ys = [] := List.eq_nil_of_length_eq_zero (by omega)
    subst hx; subst hy
    simp [mergeInterF]
  | succ n ih =>
    intro xs ys hlen hxs hys
    cases xs with
    | nil => simp [mergeInterF]
    | cons x xs =>
      cases ys with
      | nil => simp [mergeInterF]
      | cons y ys =>
        simp only [List.length_cons] at hlen
        rcases lt_trichotomy x y with h | h | h
        · simp only [mergeInterF, if_pos h]
          obtain ⟨hmem, hsort⟩ := ih xs (y :: ys)
            (by simp only [List.length_cons]; omega) hxs.of_cons hys
          refine ⟨?_, hsort⟩
          intro k
          rw [hmem k]
          constructor
          · rintro ⟨hk1, hk2⟩
            exact ⟨List.mem_cons_of_mem x hk1, hk2⟩
          · rintro ⟨hk1, hk2⟩
            refine ⟨?_, hk2⟩
            rcases List.mem_cons.mp hk1 with rfl | hk1b
            · rcases List.mem_cons.mp hk2 with rfl | hk2b
              · exact absurd h (lt_irrefl k)
              · exact absurd h (lt_asymm (List.rel_of_pairwise_cons hys hk2b))
            · exact hk1b
        · subst h
          simp only [mergeInterF, if_neg (lt_irrefl x)]
          obtain ⟨hmem, hsort⟩ := ih xs ys
            (by omega) hxs.of_cons hys.of_cons
          refine ⟨?_, ?_⟩
          · intro k
            simp only [List.mem_cons, hmem k]
            constructor
            · rintro (rfl | ⟨hk1, hk2⟩)
              · exact ⟨Or.inl rfl, Or.inl rfl⟩
              · exact ⟨Or.inr hk1, Or.inr hk2⟩
            · rintro ⟨rfl | hk1, hk2⟩
              · exact Or.inl rfl
              · rcases hk2 with rfl | hk2b
                · exact absurd (List.rel_of_pairwise_cons hxs hk1) (lt_irrefl k)
                · exact Or.inr ⟨hk1, hk2b⟩
          · rw [List.pairwise_cons]
            refine ⟨?_, hsort⟩
            intro b hb
            exact List.rel_of_pairwise_cons hxs ((hmem b).mp hb).1
        · simp only [mergeInterF, if_neg (lt_asymm h), if_pos h]
          obtain ⟨hmem, hsort⟩ := ih (x :: xs) ys
            (by simp only [List.length_cons]; omega) hxs hys.of_cons
          refine ⟨?_, hsort⟩
          intro k
          rw [hmem k]
          constructor
          · rintro ⟨hk1, hk2⟩
            exact ⟨hk1, List.mem_cons_of_mem y hk2⟩
          · rintro ⟨hk1, hk2⟩
            refine ⟨hk1, ?_⟩
            rcases List.mem_cons.mp hk2 with rfl | hk2b
            · rcases List.mem_cons.mp hk1 with rfl | hk1b
              · exact absurd h (lt_irrefl k)
              · exact absurd h (lt_asymm (List.rel_of_pairwise_cons hxs hk1b))
            · exact hk2b

theorem mergeDiffF_spec : ∀ (n : Nat) (xs ys : List K),
    xs.length + ys.length ≤ n →
    xs.Pairwise (· < ·) → ys.Pairwise (· < ·) →
    (∀ k, k ∈ mergeDiffF n xs ys ↔ k ∈ xs ∧ k ∉ ys)
    ∧ (mergeDiffF n xs ys).Pairwise (· < ·) := by
  intro n
  induction n with
  | zero =>
    intro xs ys hlen _ _
    have hx : xs = [] := List.eq_nil_of_length_eq_zero (by omega)
    have hy : ys = [] := List.eq_nil_of_length_eq_zero (by omega)
    subst hx; subst hy
    simp [mergeDiffF]
  | succ n ih =>
    intro xs ys hlen hxs hys
    cases xs with
    | nil => simp [mergeDiffF]
    | cons x xs =>
      cases ys with
      | nil =>
        refine ⟨fun k => by simp [mergeDiffF], ?_⟩
        simpa [mergeDiffF] using hxs
      | cons y ys =>
        simp only [List.length_cons] at hlen
        rcases lt_trichotomy x y with h | h | h
        · simp only [mergeDiffF, if_pos h]
          obtain ⟨hmem, hsort⟩ := ih xs (y :: ys)
            (by simp only [List.length_cons]; omega) hxs.of_cons hys
          refine ⟨?_, ?_⟩
          · intro k
            simp only [List.mem_cons, hmem k, List.mem_cons]
            constructor
            · rintro (rfl | ⟨hk1, hk2⟩)
              · refine ⟨Or.inl rfl, ?_⟩
                rintro (rfl | hk3)
                · exact absurd h (lt_irrefl k)
                · exact absurd h (lt_asymm (List.rel_of_pairwise_cons hys hk3))
              · exact ⟨Or.inr hk1, hk2⟩
            · rintro ⟨rfl | hk1, hk2⟩
              · exact Or.inl rfl
              · exact Or.inr ⟨hk1, hk2⟩
          · rw [List.pairwise_cons]
            refine ⟨?_, hsort⟩
            intro b hb
            exact List.rel_of_pairwise_cons hxs ((hmem b).mp hb).1
        · subst h
          simp only [mergeDiffF, if_neg (lt_irrefl x)]
          obtain ⟨hmem, hsort⟩ := ih xs ys
            (by omega) hxs.of_cons hys.of_cons
          refine ⟨?_, hsort⟩
          intro k
          simp only [List.mem_cons, hmem k]
          constructor
          · rintro ⟨hk1, hk2⟩
            refine ⟨Or.inr hk1, ?_⟩
            rintro (rfl | hk3)
            · exact absurd (List.rel_of_pairwise_cons hxs hk1) (lt_irrefl k)
            · exact hk2 hk3
          · rintro ⟨rfl | hk1, hk2⟩
            · exact absurd (Or.inl rfl) hk2
            · exact ⟨hk1, fun hk3 => hk2 (Or.inr hk3)⟩
        · simp only [mergeDiffF, if_neg (lt_asymm h), if_pos h]
          obtain ⟨hmem, hsort⟩ := ih (x :: xs) ys
            (by simp only [List.length_cons]; omega) hxs hys.of_cons
          refine ⟨?_, hsort⟩
          intro k
          rw [hmem k]
          constructor
          · rintro ⟨hk1, hk2⟩
            refine ⟨hk1, ?_⟩
            rintro hk3
            rcases List.mem_cons.mp hk3 with rfl | hk3b
            · rcases List.mem_cons.mp hk1 with rfl | hk1b
              · exact absurd h (lt_irrefl k)
              · exact absurd h (lt_asymm (List.rel_of_pairwise_cons hxs hk1b))
            · exact hk2 hk3b
          · rintro ⟨hk1, hk2⟩
            exact ⟨hk1, fun hk3 => hk2 (List.mem_cons_of_mem y hk3)⟩

theorem mergeSymmF_spec : ∀ (n : Nat) (xs ys : List K),
    xs.length + ys.length ≤ n →
    xs.Pairwise (· < ·) → ys.Pairwise (· < ·) →
    (∀ k, k ∈ mergeSymmF n xs ys ↔ (k ∈ xs ∧ k ∉ ys) ∨ (k ∈ ys ∧ k ∉ xs))
    ∧ (mergeSymmF n xs ys).Pairwise (· < ·) := by
  intro n
  induction n with
  | zero =>
    intro xs ys hlen _ _
    have hx : xs = [] := List.eq_nil_of_length_eq_zero (by omega)
    have hy : ys = [] := List.eq_nil_of_length_eq_zero (by omega)
    subst hx; subst hy
    simp [mergeSymmF]
  | succ n ih =>
    intro xs ys hlen hxs hys
    cases xs with
    | nil =>
      refine ⟨fun k => by simp [mergeSymmF], ?_⟩
      simpa [mergeSymmF] using hys
    | cons x xs =>
      cases ys with
      | nil =>
        refine ⟨fun k => by simp [mergeSymmF], ?_⟩
        simpa [mergeSymmF] using hxs
      | cons y ys =>
        simp only [List.length_cons] at hlen
        rcases lt_trichotomy x y with h | h | h
        · simp only [mergeSymmF, if_pos h]
          obtain ⟨hmem, hsort⟩ := ih xs (y :: ys)
            (by simp only [List.length_cons]; omega) hxs.of_cons hys
          have hF : ¬(x = y ∨ x ∈ ys) := by
            rintro (rfl | h3)
            · exact absurd h (lt_irrefl x)
            · exact absurd h (lt_asymm (List.rel_of_pairwise_cons hys h3))
          refine ⟨?_, ?_⟩
          · intro k
            simp only [List.mem_cons, hmem k]
            constructor
            · rintro (rfl | (⟨hk1, hk2⟩ | ⟨hk1, hk2⟩))
              · exact Or.inl ⟨Or.inl rfl, hF⟩
              · exact Or.inl ⟨Or.inr hk1, hk2⟩
              · refine Or.inr ⟨hk1, ?_⟩
                rintro (rfl | h3)
                · exact hF hk1
                · exact hk2 h3
            · rintro (⟨rfl | hk1, hk2⟩ | ⟨hk1, hk2⟩)
              · exact Or.inl rfl
              · exact Or.inr (Or.inl ⟨hk1, hk2⟩)
              · exact Or.inr (Or.inr ⟨hk1, fun h3 => hk2 (Or.inr h3)⟩)
          · rw [List.pairwise_cons]
            refine ⟨?_, hsort⟩
            intro b hb
            rcases (hmem b).mp hb with ⟨hb1, _⟩ | ⟨hb1, _⟩
            · exact List.rel_of_pairwise_cons hxs hb1
            · rcases List.mem_cons.mp hb1 with rfl | hb2
              · exact h
              · exact h.trans (List.rel_of_pairwise_cons hys hb2)
        · subst h
          simp only [mergeSymmF, if_neg (lt_irrefl x)]
          obtain ⟨hmem, hsort⟩ := ih xs ys
            (by omega) hxs.of_cons hys.of_cons
          refine ⟨?_, hsort⟩
          intro k
          simp only [List.mem_cons, hmem k]
          constructor
          · rintro (⟨hk1, hk2⟩ | ⟨hk1, hk2⟩)
            · refine Or.inl ⟨Or.inr hk1, ?_⟩
              rintro (rfl | h3)
              · exact absurd (List.rel_of_pairwise_cons hxs hk1) (lt_irrefl k)
              · exact hk2 h3
            · refine Or.inr ⟨Or.inr hk1, ?_⟩
              rintro (rfl | h3)
              · exact absurd (List.rel_of_pairwise_cons hys hk1) (lt_irrefl k)
              · exact hk2 h3
          · rintro (⟨rfl | hk1, hk2⟩ | ⟨rfl | hk1, hk2⟩)
            · exact absurd (Or.inl rfl) hk2
            · exact Or.inl ⟨hk1, fun h3 => hk2 (Or.inr h3)⟩
            · exact absurd (Or.inl rfl) hk2
            · exact Or.inr ⟨hk1, fun h3 => hk2 (Or.inr h3)⟩
        · simp only [mergeSymmF, if_neg (lt_asymm h), if_pos h]
          obtain ⟨hmem, hsort⟩ := ih (x :: xs) ys
            (by simp only [List.length_cons]; omega) hxs hys.of_cons
          have hF : ¬(y = x ∨ y ∈ xs) := by
            rintro (rfl | h3)
            · exact absurd h (lt_irrefl y)
            · exact absurd h (lt_asymm (List.rel_of_pairwise_cons hxs h3))
          refine ⟨?_, ?_⟩
          · intro k
            simp only [List.mem_cons, hmem k, List.mem_cons]
            constructor
            · rintro (rfl | (⟨hk1, hk2⟩ | ⟨hk1, hk2⟩))
              · exact Or.inr ⟨Or.inl rfl, hF⟩
              · refine Or.inl ⟨hk1, ?_⟩
                rintro (rfl | h3)
                · exact hF hk1
                · exact hk2 h3
              · exact Or.inr ⟨Or.inr hk1, hk2⟩
            · rintro (⟨hk1, hk2⟩ | ⟨rfl | hk1, hk2⟩)
              · exact Or.inr (Or.inl ⟨hk1, fun h3 => hk2 (Or.inr h3)⟩)
              · exact Or.inl rfl
              · exact Or.inr (Or.inr ⟨hk1, hk2⟩)
          · rw [List.pairwise_cons]
            refine ⟨?_, hsort⟩
            intro b hb
            rcases (hmem b).mp hb with ⟨hb1, _⟩ | ⟨hb1, _⟩
            · rcases List.mem_cons.mp hb1 with rfl | hb2
              · exact h
              · exact h.trans (List.rel_of_pairwise_cons hxs hb2)
            · exact List.rel_of_pairwise_cons hys hb1

namespace SgSet

/-- Modelled from the spec: SgSet::union — lazy merge-walk of the two
ascending key iterators, collected in order. -/
def union (a b : SgSet K N) : List K :=
  mergeUnionF ((keys a).length + (keys b).length) (keys a) (keys b)

/-- Modelled from the spec: SgSet::intersection. -/
def intersection (a b : SgSet K N) : List K :=
  mergeInterF ((keys a).length + (keys b).length) (keys a) (keys b)

/-- Modelled from the spec: SgSet::difference. -/
def difference (a b : SgSet K N) : List K :=
  mergeDiffF ((keys a).length + (keys b).length) (keys a) (keys b)

/-- Modelled from the spec: SgSet::symmetric_difference. -/
def symmetric_difference (a b : SgSet K N) : List K :=
  mergeSymmF ((keys a).length + (keys b).length) (keys a) (keys b)

/-- Modelled from the spec: SgSet::is_subset — every key of `a` is a key of
`b`. -/
def is_subset (a b : SgSet K N) : Bool :=
  (keys a).all (fun k => decide (k ∈ keys b))

/-- Modelled from the spec: SgSet::is_superset. -/
def is_superset (a b : SgSet K N) : Bool := is_subset b a

/-- Modelled from the spec: SgSet::is_disjoint — no key is shared. -/
def is_disjoint (a b : SgSet K N) : Bool :=
  (keys a).all (fun k => ! decide (k ∈ keys b))

theorem keys_pairwise {s : SgSet K N} (hs : s.WF) :
    (keys s).Pairwise (· < ·) := by
  rw [keys, ← ksorted_iff_keys]
  exact hs.1

end SgSet

/-- Claim C6: for well-formed sets A and B, union, intersection, difference
and symmetric_difference yield exactly the keys of the corresponding
mathematical set operation in strictly ascending order, and is_subset,
is_superset and is_disjoint decide the corresponding relations between the
key sets. -/
theorem C6_set_algebra {N : Nat} (a b : SgSet K N) (ha : a.WF) (hb : b.WF) :
    ((SgSet.union a b).Pairwise (· < ·)
      ∧ ∀ k, k ∈ SgSet.union a b ↔ k ∈ SgSet.keys a ∨ k ∈ SgSet.keys b)
    ∧ ((SgSet.intersection a b).Pairwise (· < ·)
      ∧ ∀ k, k ∈ SgSet.intersection a b ↔ k ∈ SgSet.keys a ∧ k ∈ SgSet.keys b)
    ∧ ((SgSet.difference a b).Pairwise (· < ·)
      ∧ ∀ k, k ∈ SgSet.difference a b ↔ k ∈ SgSet.keys a ∧ k ∉ SgSet.keys b)
    ∧ ((SgSet.symmetric_difference a b).Pairwise (· < ·)
      ∧ ∀ k, k ∈ SgSet.symmetric_difference a b ↔
          (k ∈ SgSet.keys a ∧ k ∉ SgSet.keys b)
          ∨ (k ∈ SgSet.keys b ∧ k ∉ SgSet.keys a))
    ∧ (SgSet.is_subset a b = true ↔ ∀ k ∈ SgSet.keys a, k ∈ SgSet.keys b)
    ∧ (SgSet.is_superset a b = true ↔ ∀ k ∈ SgSet.keys b, k ∈ SgSet.keys a)
    ∧ (SgSet.is_disjoint a b = true ↔ ∀ k ∈ SgSet.keys a, k ∉ SgSet.keys b) := by
  have hka := SgSet.keys_pairwise ha
  have hkb := SgSet.keys_pairwise hb
  obtain ⟨hu1, hu2⟩ := mergeUnionF_spec
    ((SgSet.keys a).length + (SgSet.keys b).length)
    (SgSet.keys a) (SgSet.keys b) (le_refl _) hka hkb
  obtain ⟨hi1, hi2⟩ := mergeInterF_spec
    ((SgSet.keys a).length + (SgSet.keys b).length)
    (SgSet.keys a) (SgSet.keys b) (le_refl _) hka hkb
  obtain ⟨hd1, hd2⟩ := mergeDiffF_spec
    ((SgSet.keys a).length + (SgSet.keys b).length)
    (SgSet.keys a) (SgSet.keys b) (le_refl _) hka hkb
  obtain ⟨hs1, hs2⟩ := mergeSymmF_spec
    ((SgSet.keys a).length + (SgSet.keys b).length)
    (SgSet.keys a) (SgSet.keys b) (le_refl _) hka hkb
  refine ⟨⟨hu2, hu1⟩, ⟨hi2, hi1⟩, ⟨hd2, hd1⟩, ⟨hs2, hs1⟩, ?_, ?_, ?_⟩
  · simp [SgSet.is_subset, List.all_eq_true]
  · simp [SgSet.is_superset, SgSet.is_subset, List.all_eq_true]
  · simp [SgSet.is_disjoint, List.all_eq_true]

/-- Claim C6 witness: with A = {2,4,6,8,10} and B = {1,2,3,4,10},
intersection(A,B) computes to [2,4,10], in ascending order, and the
membership characterisation holds. -/
theorem C6_set_algebra_witness :
    ((⟨SgTree.node .leaf 2 () (SgTree.node .leaf 4 () (SgTree.node .leaf 6 ()
        (SgTree.node .leaf 8 () (SgTree.node .leaf 10 () .leaf)))), 5⟩
        : SgSet Nat 5).WF
      ∧ (⟨SgTree.node .leaf 1 () (SgTree.node .leaf 2 () (SgTree.node .leaf 3 ()
          (SgTree.node .leaf 4 () (SgTree.node .leaf 10 () .leaf)))), 5⟩
          : SgSet Nat 5).WF)
    ∧ (SgSet.intersection
        (⟨SgTree.node .leaf 2 () (SgTree.node .leaf 4 () (SgTree.node .leaf 6 ()
            (SgTree.node .leaf 8 () (SgTree.node .leaf 10 () .leaf)))), 5⟩
            : SgSet Nat 5)
        (⟨SgTree.node .leaf 1 () (SgTree.node .leaf 2 () (SgTree.node .leaf 3 ()
            (SgTree.node .leaf 4 () (SgTree.node .leaf 10 () .leaf)))), 5⟩
            : SgSet Nat 5)).Pairwise (· < ·)
    ∧ SgSet.intersection
        (⟨SgTree.node .leaf 2 () (SgTree.node .leaf 4 () (SgTree.node .leaf 6 ()
            (SgTree.node .leaf 8 () (SgTree.node .leaf 10 () .leaf)))), 5⟩
            : SgSet Nat 5)
        (⟨SgTree.node .leaf 1 () (SgTree.node .leaf 2 () (SgTree.node .leaf 3 ()
            (SgTree.node .leaf 4 () (SgTree.node .leaf 10 () .leaf)))), 5⟩
            : SgSet Nat 5) = [2, 4, 10] :=
  ⟨⟨⟨by decide, by decide⟩, ⟨by decide, by decide⟩⟩,
   (C6_set_algebra
      (⟨SgTree.node .leaf 2 () (SgTree.node .leaf 4 () (SgTree.node .leaf 6 ()
          (SgTree.node .leaf 8 () (SgTree.node .leaf 10 () .leaf)))), 5⟩
          : SgSet Nat 5)
      (⟨SgTree.node .leaf 1 () (SgTree.node .leaf 2 () (SgTree.node .leaf 3 ()
          (SgTree.node .leaf 4 () (SgTree.node .leaf 10 () .leaf)))), 5⟩
          : SgSet Nat 5)
      ⟨by decide, by decide⟩ ⟨by decide, by decide⟩).2.1.1,
   by decide⟩

/- Capacity-overflow behaviour (C8): the fallible APIs return the typed
error, the infallible forms fail with exactly the documented message. -/

theorem SgMap.foldInsertP_err {N : Nat} :
    ∀ (l : List (K × V)) (acc : SgMap K V N) (s : String),
      l.foldlM (fun m e => (SgMap.insertP m e.1 e.2).map Prod.fst) acc = .error s →
      s = capacityPanicMsg := by
  intro l
  induction l with
  | nil =>
    intro acc s h
    cases h
  | cons e t ih =>
    intro acc s h
    rw [List.foldlM_cons] at h
    cases hstep : SgMap.insertP acc e.1 e.2 with
    | ok p =>
      rw [hstep] at h
      exact ih p.1 s h
    | error msg =>
      rw [hstep] at h
      have hmsg : msg = capacityPanicMsg := by
        rw [SgMap.insertP] at hstep
        cases htry : SgMap.tryInsert acc e.1 e.2 with
        | ok q => rw [htry] at hstep; cases hstep
        | error e2 =>
          rw [htry] at hstep
          cases hstep
          rfl
      cases h
      exact hmsg

theorem SgMap.foldInsertP_overflow {N : Nat} :
    ∀ (l : List (K × V)) (acc : SgMap K V N),
      KSorted (SgMap.entries acc) → SgMap.len acc ≤ N →
      (l.map Prod.fst).Nodup →
      (∀ e ∈ l, e.1 ∉ (SgMap.entries acc).map Prod.fst) →
      N < SgMap.len acc + l.length →
      l.foldlM (fun m e => (SgMap.insertP m e.1 e.2).map Prod.fst) acc
        = .error capacityPanicMsg := by
  intro l
  induction l with
  | nil =>
    intro acc _ hle _ _ hover
    exfalso
    simp only [List.length_nil] at hover
    omega
  | cons e t ih =>
    intro acc hs hle hnd hdisj hover
    have hget : ListMap.get e.1 (SgMap.entries acc) = none := by
      refine ListMap.get_eq_none_of_keys_ne ?_
      intro x hx hxk
      exact hdisj e (by simp) (hxk ▸ List.mem_map_of_mem Prod.fst hx)
    have hcont : SgMap.containsKey acc e.1 = false := by
      rw [SgMap.containsKey, SgMap.get_eq hs, hget]
      rfl
    rw [List.foldlM_cons]
    by_cases hlt : SgMap.len acc < N
    · have hstep : SgMap.insertP acc e.1 e.2 = .ok (acc.rawInsert e.1 e.2) := by
        rw [SgMap.insertP, SgMap.tryInsert, hcont]
        simp [hlt]
      rw [hstep]
      show t.foldlM (fun m e => (SgMap.insertP m e.1 e.2).map Prod.fst)
        (acc.rawInsert e.1 e.2).1 = .error capacityPanicMsg
      have hlen1 : (acc.rawInsert e.1 e.2).1.len = SgMap.len acc + 1 := by
        rw [SgMap.rawInsert_len hs, hcont]
        rfl
      refine ih (acc.rawInsert e.1 e.2).1 (SgMap.rawInsert_ksorted hs e.1 e.2)
        (by omega) ?_ ?_ ?_
      · simp only [List.map_cons, List.nodup_cons] at hnd
        exact hnd.2
      · intro x hx hxk
        rw [SgMap.rawInsert_entries hs] at hxk
        rcases (ListMap.keys_insert e.2 (SgMap.entries acc)).mp hxk with h1 | h1
        · simp only [List.map_cons, List.nodup_cons] at hnd
          exact hnd.1 (h1 ▸ List.mem_map_of_mem Prod.fst hx)
        · exact hdisj x (List.mem_cons_of_mem e hx) h1
      · simp only [List.length_cons] at hover
        omega
    · have hstep : SgMap.insertP acc e.1 e.2 = .error capacityPanicMsg := by
        rw [SgMap.insertP, SgMap.tryInsert, hcont]
        simp [hlt]
      rw [hstep]
      rfl

/-- Claim C8: the panic message constant is exactly
"Stack-storage capacity exceeded!"; try_insert and try_append fail with the
typed StackCapacityExceeded error; the infallible insert and append fail with
exactly the message, and do so precisely when the operation would exceed the
capacity; and construction from a sequence (FromIterator, the macro) fails
with exactly the message, in particular always when the sequence holds more
distinct keys than the capacity. -/
theorem C8_capacity_panics {N : Nat} :
    capacityPanicMsg = "Stack-storage capacity exceeded!"
    ∧ (∀ (m : SgMap K V N) (k : K) (v : V),
        (∀ e, SgMap.tryInsert m k v = .error e → e = .stackCapacityExceeded)
        ∧ (∀ s, SgMap.insertP m k v = .error s → s = capacityPanicMsg)
        ∧ (SgMap.insertP m k v = .error capacityPanicMsg
            ↔ SgMap.containsKey m k = false ∧ N ≤ SgMap.len m))
    ∧ (∀ a b : SgMap K V N,
        (∀ e, SgMap.tryAppend a b = .error e → e = .stackCapacityExceeded)
        ∧ (∀ s, SgMap.appendP a b = .error s → s = capacityPanicMsg)
        ∧ (SgMap.appendP a b = .error capacityPanicMsg
            ↔ N < SgMap.len a
                + ((SgMap.entries b).filter
                    (fun e => ! SgMap.containsKey a e.1)).length))
    ∧ (∀ l : List (K × V),
        (∀ s, SgMap.fromListP (N := N) l = .error s → s = capacityPanicMsg)
        ∧ ((l.map Prod.fst).Nodup → N < l.length →
            SgMap.fromListP (N := N) l = .error capacityPanicMsg)) := by
  refine ⟨rfl, ?_, ?_, ?_⟩
  · intro m k v
    refine ⟨fun e _ => by cases e; rfl, ?_, ?_⟩
    · intro s hs
      rw [SgMap.insertP] at hs
      cases htry : SgMap.tryInsert m k v with
      | ok q => rw [htry] at hs; cases hs
      | error e2 =>
        rw [htry] at hs
        cases hs
        rfl
    · rw [SgMap.insertP, SgMap.tryInsert]
      by_cases hc : SgMap.containsKey m k
      · simp [hc]
      · by_cases hlt : SgMap.len m < N
        · simp [hc, hlt]
        · simp [hc, hlt]
          omega
  · intro a b
    refine ⟨fun e _ => by cases e; rfl, ?_, ?_⟩
    · intro s hs
      rw [SgMap.appendP] at hs
      cases htry : SgMap.tryAppend a b with
      | ok q => rw [htry] at hs; cases hs
      | error e2 =>
        rw [htry] at hs
        cases hs
        rfl
    · rw [SgMap.appendP, SgMap.tryAppend]
      by_cases hcap : N < SgMap.len a
          + ((SgMap.entries b).filter (fun e => ! SgMap.containsKey a e.1)).length
      · rw [if_pos hcap]
        simp [hcap]
      · rw [if_neg hcap]
        simp [hcap]
  · intro l
    refine ⟨fun s hs => SgMap.foldInsertP_err l SgMap.empty s hs, ?_⟩
    intro hnd hover
    rw [SgMap.fromListP]
    refine SgMap.foldInsertP_overflow l SgMap.empty ?_ ?_ hnd ?_ ?_
    · rw [SgMap.empty_entries]
      exact List.Pairwise.nil
    · simp [SgMap.len, SgMap.empty_entries]
    · intro e _ hk
      rw [SgMap.empty_entries] at hk
      cases hk
    · simp only [SgMap.len, SgMap.empty_entries, List.length_nil]
      omega

/-- Claim C8 witness: with capacity 3, building from the four distinct keys
1,2,3,4 fails with exactly the documented message. -/
theorem C8_capacity_panics_witness :
    (([((1 : Nat), ()), (2, ()), (3, ()), (4, ())].map Prod.fst).Nodup
      ∧ 3 < [((1 : Nat), ()), (2, ()), (3, ()), (4, ())].length)
    ∧ SgMap.fromListP (N := 3) [((1 : Nat), ()), (2, ()), (3, ()), (4, ())]
        = .error capacityPanicMsg :=
  ⟨⟨by decide, by decide⟩,
   ((C8_capacity_panics (K := Nat) (V := Unit) (N := 3)).2.2.2
      [((1 : Nat), ()), (2, ()), (3, ()), (4, ())]).2 (by decide) (by decide)⟩

/- Differential equivalence (C7): an operation language mirroring the fuzz
harness (fuzz/fuzz_targets/sg_map.rs), replayed against the engine and
against the reference sorted-association-list model of BTreeMap. The
harness's capacity guards are built into both replays. -/

/-- Reference construction from an arbitrary sequence (BTreeMap::from_iter):
later occurrences of a key overwrite earlier ones. -/
def refFromList (other : List (K × V)) : List (K × V) :=
  other.foldl (fun acc e => (ListMap.insert e.1 e.2 acc).1) []

/-- Modelled from the spec: SgMap::from_iter as the fold of plain insertions
(used only under the harness's capacity guard). -/
def SgMap.fromFold {N : Nat} (other : List (K × V)) : SgMap K V N :=
  other.foldl (fun m e => (m.rawInsert e.1 e.2).1) SgMap.empty

theorem SgMap.fromFold_entries {N : Nat} (other : List (K × V)) :
    (SgMap.fromFold (N := N) other).entries = refFromList other
    ∧ KSorted (SgMap.fromFold (N := N) other).entries := by
  obtain ⟨h1, h2⟩ :=
    SgMap.foldRawInsert_spec (N := N) other SgMap.empty
      (by rw [SgMap.empty_entries]; exact List.Pairwise.nil)
  rw [SgMap.fromFold, refFromList]
  rw [SgMap.empty_entries] at h1
  exact ⟨h1, h2⟩

theorem ListMap.foldl_insert_length_le (o : List (K × V)) :
    ∀ l : List (K × V),
      (o.foldl (fun acc e => (ListMap.insert e.1 e.2 acc).1) l).length
        ≤ l.length + o.length := by
  induction o with
  | nil => intro l; simp
  | cons e t ih =>
    intro l
    simp only [List.foldl_cons, List.length_cons]
    calc (t.foldl (fun acc e => (ListMap.insert e.1 e.2 acc).1)
            (ListMap.insert e.1 e.2 l).1).length
        ≤ (ListMap.insert e.1 e.2 l).1.length + t.length := ih _
      _ ≤ l.length + 1 + t.length := by
            rw [ListMap.insert_length e.1 e.2 l]
            split <;> omega
      _ = l.length + (t.length + 1) := by omega

theorem ListMap.foldl_insert_ksorted2 (o : List (K × V)) :
    ∀ l : List (K × V), KSorted l →
      KSorted (o.foldl (fun acc e => (ListMap.insert e.1 e.2 acc).1) l) := by
  induction o with
  | nil => intro l h; exact h
  | cons e t ih =>
    intro l h
    simp only [List.foldl_cons]
    exact ih _ (ListMap.insert_ksorted h)

theorem SgBounds.check_included (a b : K) (h : a ≤ b) :
    (⟨SgBound.included a, SgBound.included b⟩ : SgBounds K).check = .ok () := by
  rw [SgBounds.check]
  simp [SgBound.key?, SgBound.excl, not_lt.mpr h]

theorem RangeMut.run_replicate_back :
    ∀ (n : Nat) (s : RangeMut K V),
      (RangeMut.run s (List.replicate n true)).2.1 = [] := by
  intro n
  induction n with
  | zero => intro s; rfl
  | succ n ih =>
    intro s
    rw [List.replicate_succ, RangeMut.run]
    exact ih _

theorem RangeMut.run_replicate_forward {s : RangeMut K V} (h : s.good) :
    (RangeMut.run s (List.replicate s.mid.length true)).1 = s.mid := by
  obtain ⟨heq, hlen, _⟩ := RangeMut.run_spec (List.replicate s.mid.length true) s h
  rw [RangeMut.run_replicate_back s.mid.length s] at heq hlen
  simp only [List.reverse_nil, List.append_nil, List.length_nil,
    List.length_replicate, Nat.add_zero, Nat.min_self] at heq hlen
  have hc := congrArg List.length heq
  simp only [List.length_append] at hc
  have hmid0 : (RangeMut.run s (List.replicate s.mid.length true)).2.2.mid = [] :=
    List.eq_nil_of_length_eq_zero (by omega)
  rw [hmid0, List.append_nil] at heq
  exact heq

/-- The public-surface operations exercised by the differential fuzz harness:
map APIs, entry APIs, iteration, ranges, bulk operations and the observable
trait surface (clone, debug, extend, ordering). Function-valued payloads
stand for the harness's randomised closures. -/
inductive MapOp (K V : Type) where
  | append (other : List (K × V))
  | clear
  | containsKey (k : K)
  | entryProbe (k : K)
  | andModify (k : K) (f : V → V)
  | orInsert (k : K) (d : V)
  | occInsert (k : K) (v : V)
  | firstKeyValue
  | lastKeyValue
  | get (k : K)
  | getKeyValue (k : K)
  | insert (k : K) (v : V)
  | isEmpty
  | iter
  | keys
  | values
  | len
  | new
  | popFirst
  | popLast
  | range (lo hi : K)
  | rangeMut (lo hi : K)
  | remove (k : K)
  | removeEntry (k : K)
  | retain (p : K → Bool)
  | splitOff (k : K)
  | tryInsertStd (k : K) (v : V)
  | cloneIter
  | debugFmt (fk : K → String) (fv : V → String)
  | extendList (other : List (K × V))
  | ordCmp (other : List (K × V)) (c : List (K × V) → List (K × V) → Ordering)

/-- Everything the harness observes and compares across the two containers. -/
inductive MapObs (K V : Type) where
  | unit
  | bool (b : Bool)
  | nat (n : Nat)
  | key (k : K)
  | keyVariant (k : K) (occupied : Bool)
  | optVal (v : Option V)
  | optEntry (e : Option (K × V))
  | entryList (l : List (K × V))
  | keyList (l : List K)
  | valList (l : List V)
  | str (s : String)
  | ord (o : Ordering)
  | tryRes (r : Except (K × V) V)

/-- Debug rendering of an iteration sequence, the common format of both
containers. -/
def debugRender (fk : K → String) (fv : V → String) (l : List (K × V)) : String :=
  "\x7b" ++ String.intercalate ", " (l.map (fun e => fk e.1 ++ ": " ++ fv e.2))
    ++ "\x7d"

/-- Modelled from the spec: one harness step against the engine, with the
harness's capacity guards. -/
def stepSg {N : Nat} : MapOp K V → SgMap K V N → MapObs K V × SgMap K V N
  | .append other, m =>
    if other.length ≤ N ∧ m.len + (SgMap.fromFold (N := N) other).len ≤ N then
      match SgMap.tryAppend m (SgMap.fromFold other) with
      | .ok p => (.nat p.1.len, p.1)
      | .error _ => (.unit, m)
    else (.unit, m)
  | .clear, m => (.unit, SgMap.clear m)
  | .containsKey k, m => (.bool (m.containsKey k), m)
  | .entryProbe k, m => (.keyVariant k (m.containsKey k), m)
  | .andModify k f, m =>
    match m.get k with
    | some v => (.key k, ⟨(m.root.replaceVal k (f v)).2, m.maxSize⟩)
    | none => (.key k, m)
  | .orInsert k d, m =>
    match m.get k with
    | some v => (.optVal (some v), m)
    | none =>
      if m.len < N then (.optVal (some d), (m.rawInsert k d).1)
      else (.unit, m)
  | .occInsert k v, m =>
    match m.get k with
    | some old => (.optVal (some old), ⟨(m.root.replaceVal k v).2, m.maxSize⟩)
    | none => (.unit, m)
  | .firstKeyValue, m => (.optEntry m.entries.head?, m)
  | .lastKeyValue, m => (.optEntry m.entries.getLast?, m)
  | .get k, m => (.optVal (m.get k), m)
  | .getKeyValue k, m =>
    (.optEntry (match m.get k with | some v => some (k, v) | none => none), m)
  | .insert k v, m =>
    if m.len < N then (.optVal (m.rawInsert k v).2, (m.rawInsert k v).1)
    else (.unit, m)
  | .isEmpty, m => (.bool m.checkEmpty, m)
  | .iter, m => (.entryList m.entries, m)
  | .keys, m => (.keyList (m.entries.map Prod.fst), m)
  | .values, m => (.valList (m.entries.map Prod.snd), m)
  | .len, m => (.nat m.len, m)
  | .new, _ => (.unit, SgMap.empty)
  | .popFirst, m => (.optEntry (m.popFirst).2, (m.popFirst).1)
  | .popLast, m => (.optEntry (m.popLast).2, (m.popLast).1)
  | .range lo hi, m =>
    if lo = hi then (.unit, m)
    else
      match m.range ⟨.included (min lo hi), .included (max lo hi)⟩ with
      | .ok L => (.entryList L, m)
      | .error _ => (.unit, m)
  | .rangeMut lo hi, m =>
    if lo = hi then (.unit, m)
    else
      let s := RangeMut.new m ⟨.included (min lo hi), .included (max lo hi)⟩
      (.entryList (RangeMut.run s (List.replicate s.totalCnt true)).1, m)
  | .remove k, m => (.optVal ((m.removeEntry k).2.map Prod.snd), (m.removeEntry k).1)
  | .removeEntry k, m => (.optEntry (m.removeEntry k).2, (m.removeEntry k).1)
  | .retain p, m =>
    (.entryList (m.retain (fun k _ => p k)).entries, m.retain (fun k _ => p k))
  | .splitOff k, m => (.entryList (m.splitOff k).2.entries, (m.splitOff k).1)
  | .tryInsertStd k v, m =>
    match m.get k with
    | some _ => (.tryRes (.error (k, v)), m)
    | none =>
      if m.len < N then (.tryRes (.ok v), (m.rawInsert k v).1)
      else (.unit, m)
  | .cloneIter, m => (.entryList m.entries, m)
  | .debugFmt fk fv, m => (.str (debugRender fk fv m.entries), m)
  | .extendList other, m =>
    if m.len + other.length ≤ N then
      (.entryList (other.foldl (fun m2 e => (m2.rawInsert e.1 e.2).1) m).entries,
        other.foldl (fun m2 e => (m2.rawInsert e.1 e.2).1) m)
    else (.unit, m)
  | .ordCmp other c, m =>
    if other.length ≤ N then
      (.ord (c m.entries (SgMap.fromFold (N := N) other).entries), m)
    else (.unit, m)

/-- One harness step against the reference model: BTreeMap's documented
behaviour on the key-sorted association list. -/
def stepRef (N : Nat) : MapOp K V → List (K × V) → MapObs K V × List (K × V)
  | .append other, l =>
    if other.length ≤ N ∧ l.length + (refFromList other).length ≤ N then
      ((.nat ((refFromList other).foldl
          (fun acc e => (ListMap.insert e.1 e.2 acc).1) l).length),
        (refFromList other).foldl (fun acc e => (ListMap.insert e.1 e.2 acc).1) l)
    else (.unit, l)
  | .clear, _ => (.unit, [])
  | .containsKey k, l => (.bool (ListMap.get k l).isSome, l)
  | .entryProbe k, l => (.keyVariant k (ListMap.get k l).isSome, l)
  | .andModify k f, l =>
    match ListMap.get k l with
    | some v => (.key k, (ListMap.setVal k (f v) l).2)
    | none => (.key k, l)
  | .orInsert k d, l =>
    match ListMap.get k l with
    | some v => (.optVal (some v), l)
    | none =>
      if l.length < N then (.optVal (some d), (ListMap.insert k d l).1)
      else (.unit, l)
  | .occInsert k v, l =>
    match ListMap.get k l with
    | some old => (.optVal (some old), (ListMap.setVal k v l).2)
    | none => (.unit, l)
  | .firstKeyValue, l => (.optEntry l.head?, l)
  | .lastKeyValue, l => (.optEntry l.getLast?, l)
  | .get k, l => (.optVal (ListMap.get k l), l)
  | .getKeyValue k, l =>
    (.optEntry (match ListMap.get k l with | some v => some (k, v) | none => none), l)
  | .insert k v, l =>
    if l.length < N then (.optVal (ListMap.insert k v l).2, (ListMap.insert k v l).1)
    else (.unit, l)
  | .isEmpty, l => (.bool (decide (l.length = 0)), l)
  | .iter, l => (.entryList l, l)
  | .keys, l => (.keyList (l.map Prod.fst), l)
  | .values, l => (.valList (l.map Prod.snd), l)
  | .len, l => (.nat l.length, l)
  | .new, _ => (.unit, [])
  | .popFirst, l => (.optEntry l.head?, l.tail)
  | .popLast, l => (.optEntry l.getLast?, l.dropLast)
  | .range lo hi, l =>
    if lo = hi then (.unit, l)
    else
      (.entryList (l.filter
          (fun e => decide (min lo hi ≤ e.1) && decide (e.1 ≤ max lo hi))), l)
  | .rangeMut lo hi, l =>
    if lo = hi then (.unit, l)
    else
      (.entryList (l.filter
          (fun e => decide (min lo hi ≤ e.1) && decide (e.1 ≤ max lo hi))), l)
  | .remove k, l =>
    match ListMap.remove k l with
    | none => (.optVal none, l)
    | some (e, t) => (.optVal (some e.2), t)
  | .removeEntry k, l =>
    match ListMap.remove k l with
    | none => (.optEntry none, l)
    | some (e, t) => (.optEntry (some e), t)
  | .retain p, l =>
    (.entryList (l.filter (fun e => p e.1)), l.filter (fun e => p e.1))
  | .splitOff k, l =>
    (.entryList (l.filter (fun e => ! decide (e.1 < k))),
      l.filter (fun e => decide (e.1 < k)))
  | .tryInsertStd k v, l =>
    match ListMap.get k l with
    | some _ => (.tryRes (.error (k, v)), l)
    | none =>
      if l.length < N then (.tryRes (.ok v), (ListMap.insert k v l).1)
      else (.unit, l)
  | .cloneIter, l => (.entryList l, l)
  | .debugFmt fk fv, l => (.str (debugRender fk fv l), l)
  | .extendList other, l =>
    if l.length + other.length ≤ N then
      (.entryList (other.foldl (fun acc e => (ListMap.insert e.1 e.2 acc).1) l),
        other.foldl (fun acc e => (ListMap.insert e.1 e.2 acc).1) l)
    else (.unit, l)
  | .ordCmp other c, l =>
    if other.length ≤ N then (.ord (c l (refFromList other)), l)
    else (.unit, l)

/-- Replay a whole operation sequence against the engine, collecting the
observations. -/
def replaySg {N : Nat} : List (MapOp K V) → SgMap K V N →
    List (MapObs K V) × SgMap K V N
  | [], m => ([], m)
  | op :: ops, m =>
    ((stepSg op m).1 :: (replaySg ops (stepSg op m).2).1,
      (replaySg ops (stepSg op m).2).2)

/-- Replay a whole operation sequence against the reference model. -/
def replayRef (N : Nat) : List (MapOp K V) → List (K × V) →
    List (MapObs K V) × List (K × V)
  | [], l => ([], l)
  | op :: ops, l =>
    ((stepRef N op l).1 :: (replayRef N ops (stepRef N op l).2).1,
      (replayRef N ops (stepRef N op l).2).2)

theorem stepAgree {N : Nat} (op : MapOp K V) (m : SgMap K V N) (l : List (K × V))
    (he : m.entries = l) (hs : KSorted l) (hn : l.length ≤ N) :
    (stepSg op m).1 = (stepRef N op l).1
    ∧ (stepSg op m).2.entries = (stepRef N op l).2
    ∧ KSorted (stepRef N op l).2
    ∧ (stepRef N op l).2.length ≤ N := by
  have hsm : KSorted m.entries := he ▸ hs
  have he2 : m.root.toList = l := he
  have hlen : m.len = l.length := by rw [SgMap.len, he]
  have hget : ∀ k, m.get k = ListMap.get k l := fun k => by
    rw [SgMap.get_eq hsm, he]
  cases op with
  | append other =>
    obtain ⟨hfe, hfs⟩ := SgMap.fromFold_entries (K := K) (V := V) (N := N) other
    have hflen : (SgMap.fromFold (N := N) other).len = (refFromList other).length := by
      rw [SgMap.len, hfe]
    simp only [stepSg, stepRef]
    by_cases hg : other.length ≤ N ∧ l.length + (refFromList other).length ≤ N
    · rw [if_pos (by rw [hlen, hflen]; exact hg), if_pos hg]
      have hcap : ¬ N < SgMap.len m
          + ((SgMap.entries (SgMap.fromFold (N := N) other)).filter
              (fun e => ! SgMap.containsKey m e.1)).length := by
        have h1 : ((SgMap.entries (SgMap.fromFold (N := N) other)).filter
            (fun e => ! SgMap.containsKey m e.1)).length
            ≤ (SgMap.entries (SgMap.fromFold (N := N) other)).length :=
          List.length_filter_le _ _
        have h2 : (SgMap.entries (SgMap.fromFold (N := N) other)).length
            = (refFromList other).length := by rw [hfe]
        have h3 := hg.2
        rw [hlen]
        omega
      rw [SgMap.tryAppend, if_neg hcap]
      obtain ⟨hf1, hf2⟩ :=
        SgMap.foldRawInsert_spec (N := N)
          (SgMap.entries (SgMap.fromFold (N := N) other)) m hsm
      have hstate : ((SgMap.entries (SgMap.fromFold (N := N) other)).foldl
            (fun m2 e => (m2.rawInsert e.1 e.2).1) m).entries
          = (refFromList other).foldl (fun acc e => (ListMap.insert e.1 e.2 acc).1) l := by
        rw [hf1, hfe, he]
      refine ⟨?_, hstate, ?_, ?_⟩
      · show MapObs.nat (SgMap.len _) = MapObs.nat _
        rw [SgMap.len, hstate]
      · rw [← hstate]
        exact hf2
      · calc ((refFromList other).foldl
              (fun acc e => (ListMap.insert e.1 e.2 acc).1) l).length
            ≤ l.length + (refFromList other).length :=
              ListMap.foldl_insert_length_le _ l
          _ ≤ N := hg.2
    · rw [if_neg (by rw [hlen, hflen]; exact hg), if_neg hg]
      exact ⟨rfl, he, hs, hn⟩
  | clear =>
    exact ⟨rfl, rfl, List.Pairwise.nil, Nat.zero_le N⟩
  | containsKey k =>
    simp only [stepSg, stepRef]
    refine ⟨?_, he, hs, hn⟩
    rw [SgMap.containsKey, hget k]
  | entryProbe k =>
    simp only [stepSg, stepRef]
    refine ⟨?_, he, hs, hn⟩
    rw [SgMap.containsKey, hget k]
  | andModify k f =>
    simp only [stepSg, stepRef, hget k]
    cases hv : ListMap.get k l with
    | none => exact ⟨rfl, he, hs, hn⟩
    | some v =>
      have hrv := SgTree.replaceVal_spec (t := m.root) hsm k (f v)
      rw [Prod.mk.injEq] at hrv
      have hstate : (m.root.replaceVal k (f v)).2.toList
          = (ListMap.setVal k (f v) l).2 := by
        rw [hrv.2, he2]
      have hkeys := ListMap.setVal_keys k (f v) l
      refine ⟨rfl, hstate, ?_, ?_⟩
      · rw [ksorted_iff_keys, hkeys, ← ksorted_iff_keys]
        exact hs
      · show (ListMap.setVal k (f v) l).2.length ≤ N
        have hc := congrArg List.length hkeys
        simp only [List.length_map] at hc
        omega
  | orInsert k d =>
    simp only [stepSg, stepRef, hget k]
    cases hv : ListMap.get k l with
    | some v => exact ⟨rfl, he, hs, hn⟩
    | none =>
      by_cases hlt : l.length < N
      · rw [if_pos (by rw [hlen]; exact hlt), if_pos hlt]
        have hent : (m.rawInsert k d).1.entries = (ListMap.insert k d l).1 := by
          rw [SgMap.rawInsert_entries hsm, he]
        refine ⟨rfl, hent, ListMap.insert_ksorted hs, ?_⟩
        show (ListMap.insert k d l).1.length ≤ N
        have := ListMap.insert_length k d l
        split at this <;> omega
      · rw [if_neg (by rw [hlen]; exact hlt), if_neg hlt]
        exact ⟨rfl, he, hs, hn⟩
  | occInsert k v =>
    simp only [stepSg, stepRef, hget k]
    cases hv : ListMap.get k l with
    | none => exact ⟨rfl, he, hs, hn⟩
    | some old =>
      have hrv := SgTree.replaceVal_spec (t := m.root) hsm k v
      rw [Prod.mk.injEq] at hrv
      have hstate : (m.root.replaceVal k v).2.toList
          = (ListMap.setVal k v l).2 := by
        rw [hrv.2, he2]
      have hkeys := ListMap.setVal_keys k v l
      refine ⟨rfl, hstate, ?_, ?_⟩
      · rw [ksorted_iff_keys, hkeys, ← ksorted_iff_keys]
        exact hs
      · show (ListMap.setVal k v l).2.length ≤ N
        have hc := congrArg List.length hkeys
        simp only [List.length_map] at hc
        omega
  | firstKeyValue =>
    simp only [stepSg, stepRef]
    exact ⟨by rw [he], he, hs, hn⟩
  | lastKeyValue =>
    simp only [stepSg, stepRef]
    exact ⟨by rw [he], he, hs, hn⟩
  | get k =>
    simp only [stepSg, stepRef]
    exact ⟨by rw [hget k], he, hs, hn⟩
  | getKeyValue k =>
    simp only [stepSg, stepRef]
    exact ⟨by rw [hget k], he, hs, hn⟩
  | insert k v =>
    simp only [stepSg, stepRef]
    by_cases hlt : l.length < N
    · rw [if_pos (by rw [hlen]; exact hlt), if_pos hlt]
      have hent : (m.rawInsert k v).1.entries = (ListMap.insert k v l).1 := by
        rw [SgMap.rawInsert_entries hsm, he]
      have hold : (m.rawInsert k v).2 = (ListMap.insert k v l).2 := by
        rw [SgMap.rawInsert_old hsm, he]
      refine ⟨by rw [hold], hent, ListMap.insert_ksorted hs, ?_⟩
      show (ListMap.insert k v l).1.length ≤ N
      have := ListMap.insert_length k v l
      split at this <;> omega
    · rw [if_neg (by rw [hlen]; exact hlt), if_neg hlt]
      exact ⟨rfl, he, hs, hn⟩
  | isEmpty =>
    simp only [stepSg, stepRef]
    exact ⟨by rw [SgMap.checkEmpty, hlen], he, hs, hn⟩
  | iter =>
    simp only [stepSg, stepRef]
    exact ⟨by rw [he], he, hs, hn⟩
  | keys =>
    simp only [stepSg, stepRef]
    exact ⟨by rw [he], he, hs, hn⟩
  | values =>
    simp only [stepSg, stepRef]
    exact ⟨by rw [he], he, hs, hn⟩
  | len =>
    simp only [stepSg, stepRef]
    exact ⟨by rw [hlen], he, hs, hn⟩
  | new =>
    exact ⟨rfl, rfl, List.Pairwise.nil, Nat.zero_le N⟩
  | popFirst =>
    have hpf := SgMap.popFirst_spec m
    rw [he] at hpf
    simp only [stepSg, stepRef]
    cases l with
    | nil =>
      simp only [] at hpf
      rw [Prod.mk.injEq] at hpf
      exact ⟨by rw [hpf.2]; rfl, hpf.1, List.Pairwise.nil, Nat.zero_le N⟩
    | cons e t =>
      simp only [] at hpf
      rw [Prod.mk.injEq] at hpf
      refine ⟨by rw [hpf.2]; rfl, hpf.1, hs.of_cons, ?_⟩
      simp only [List.length_cons] at hn
      simp only [List.tail_cons]
      omega
  | popLast =>
    have hpl := SgMap.popLast_spec m
    rw [he] at hpl
    simp only [stepSg, stepRef]
    cases hgl : l.getLast? with
    | none =>
      rw [hgl] at hpl
      simp only [] at hpl
      rw [Prod.mk.injEq] at hpl
      have hnil : l = [] := by
        cases l with
        | nil => rfl
        | cons e t => rw [List.getLast?_eq_getLast (e :: t) (by simp)] at hgl; cases hgl
      refine ⟨by rw [hpl.2], ?_, ?_, ?_⟩
      · rw [hpl.1, hnil]
        rfl
      · exact List.Pairwise.sublist (List.dropLast_sublist l) hs
      · have := List.length_dropLast l
        omega
    | some e =>
      rw [hgl] at hpl
      simp only [] at hpl
      rw [Prod.mk.injEq] at hpl
      refine ⟨by rw [hpl.2], hpl.1, ?_, ?_⟩
      · exact List.Pairwise.sublist (List.dropLast_sublist l) hs
      · have := List.length_dropLast l
        omega
  | range lo hi =>
    by_cases hq : lo = hi
    · simp only [stepSg, stepRef, if_pos hq]
      exact ⟨trivial, he, hs, hn⟩
    · simp only [stepSg, stepRef, if_neg hq]
      have hok : m.range ⟨.included (min lo hi), .included (max lo hi)⟩
          = .ok (m.root.rangeGo ⟨.included (min lo hi), .included (max lo hi)⟩) := by
        rw [SgMap.range, SgBounds.check_included (min lo hi) (max lo hi) min_le_max]
      rw [hok]
      refine ⟨?_, he, hs, hn⟩
      show MapObs.entryList _ = MapObs.entryList _
      rw [SgTree.rangeGo_eq_filter (t := m.root) hsm
        ⟨.included (min lo hi), .included (max lo hi)⟩, he2]
      rfl
  | rangeMut lo hi =>
    by_cases hq : lo = hi
    · simp only [stepSg, stepRef, if_pos hq]
      exact ⟨trivial, he, hs, hn⟩
    · simp only [stepSg, stepRef, if_neg hq]
      obtain ⟨hgood, hmid, htot⟩ := rangeMutNew_good hsm
        ⟨.included (min lo hi), .included (max lo hi)⟩
      refine ⟨?_, he, hs, hn⟩
      show MapObs.entryList _ = MapObs.entryList _
      have htot2 : (RangeMut.new m
            ⟨.included (min lo hi), .included (max lo hi)⟩).totalCnt
          = (RangeMut.new m
            ⟨.included (min lo hi), .included (max lo hi)⟩).mid.length := by
        rw [htot, hmid]
      rw [htot2, RangeMut.run_replicate_forward hgood, hmid, he]
      rfl
  | remove k =>
    have hre := SgMap.removeEntry_spec hsm k
    rw [he] at hre
    simp only [stepSg, stepRef]
    cases hr : ListMap.remove k l with
    | none =>
      rw [hr] at hre
      simp only [] at hre
      rw [Prod.mk.injEq] at hre
      exact ⟨by rw [hre.2]; rfl, hre.1, hs, hn⟩
    | some p =>
      rcases p with ⟨e, t⟩
      rw [hr] at hre
      simp only [] at hre
      rw [Prod.mk.injEq] at hre
      refine ⟨by rw [hre.2]; rfl, hre.1, ListMap.remove_ksorted hs hr, ?_⟩
      show t.length ≤ N
      have := ListMap.remove_length hr
      omega
  | removeEntry k =>
    have hre := SgMap.removeEntry_spec hsm k
    rw [he] at hre
    simp only [stepSg, stepRef]
    cases hr : ListMap.remove k l with
    | none =>
      rw [hr] at hre
      simp only [] at hre
      rw [Prod.mk.injEq] at hre
      exact ⟨by rw [hre.2], hre.1, hs, hn⟩
    | some p =>
      rcases p with ⟨e, t⟩
      rw [hr] at hre
      simp only [] at hre
      rw [Prod.mk.injEq] at hre
      refine ⟨by rw [hre.2], hre.1, ListMap.remove_ksorted hs hr, ?_⟩
      show t.length ≤ N
      have := ListMap.remove_length hr
      omega
  | retain p =>
    simp only [stepSg, stepRef]
    have hrt := SgMap.retain_entries m (fun k _ => p k)
    rw [he] at hrt
    exact ⟨by rw [hrt], hrt,
      List.Pairwise.sublist (List.filter_sublist l) hs,
      le_trans (List.length_filter_le _ l) hn⟩
  | splitOff k =>
    have hsp := SgMap.splitOff_entries m k
    rw [Prod.mk.injEq] at hsp
    obtain ⟨h1, h2⟩ := hsp
    rw [he] at h1 h2
    simp only [stepSg, stepRef]
    exact ⟨by rw [h2], h1,
      List.Pairwise.sublist (List.filter_sublist l) hs,
      le_trans (List.length_filter_le _ l) hn⟩
  | tryInsertStd k v =>
    simp only [stepSg, stepRef, hget k]
    cases hv : ListMap.get k l with
    | some v0 => exact ⟨rfl, he, hs, hn⟩
    | none =>
      by_cases hlt : l.length < N
      · rw [if_pos (by rw [hlen]; exact hlt), if_pos hlt]
        have hent : (m.rawInsert k v).1.entries = (ListMap.insert k v l).1 := by
          rw [SgMap.rawInsert_entries hsm, he]
        refine ⟨rfl, hent, ListMap.insert_ksorted hs, ?_⟩
        show (ListMap.insert k v l).1.length ≤ N
        have := ListMap.insert_length k v l
        split at this <;> omega
      · rw [if_neg (by rw [hlen]; exact hlt), if_neg hlt]
        exact ⟨rfl, he, hs, hn⟩
  | cloneIter =>
    simp only [stepSg, stepRef]
    exact ⟨by rw [he], he, hs, hn⟩
  | debugFmt fk fv =>
    simp only [stepSg, stepRef]
    exact ⟨by rw [he], he, hs, hn⟩
  | extendList other =>
    simp only [stepSg, stepRef]
    by_cases hg : l.length + other.length ≤ N
    · rw [if_pos (by rw [hlen]; exact hg), if_pos hg]
      obtain ⟨hf1, hf2⟩ := SgMap.foldRawInsert_spec (N := N) other m hsm
      have hstate : (other.foldl (fun m2 e => (m2.rawInsert e.1 e.2).1) m).entries
          = other.foldl (fun acc e => (ListMap.insert e.1 e.2 acc).1) l := by
        rw [hf1, he]
      refine ⟨by rw [hstate], hstate, by rw [← hstate]; exact hf2, ?_⟩
      calc (other.foldl (fun acc e => (ListMap.insert e.1 e.2 acc).1) l).length
          ≤ l.length + other.length := ListMap.foldl_insert_length_le other l
        _ ≤ N := hg
    · rw [if_neg (by rw [hlen]; exact hg), if_neg hg]
      exact ⟨rfl, he, hs, hn⟩
  | ordCmp other c =>
    simp only [stepSg, stepRef]
    by_cases hg : other.length ≤ N
    · rw [if_pos hg, if_pos hg]
      obtain ⟨hfe, _⟩ := SgMap.fromFold_entries (K := K) (V := V) (N := N) other
      refine ⟨?_, he, hs, hn⟩
      rw [he, hfe]
    · rw [if_neg hg, if_neg hg]
      exact ⟨rfl, he, hs, hn⟩

theorem replayAgree {N : Nat} :
    ∀ (ops : List (MapOp K V)) (m : SgMap K V N) (l : List (K × V)),
      m.entries = l → KSorted l → l.length ≤ N →
      (replaySg ops m).1 = (replayRef N ops l).1 := by
  intro ops
  induction ops with
  | nil => intro m l _ _ _; rfl
  | cons op t ih =>
    intro m l he hs hn
    obtain ⟨h1, h2, h3, h4⟩ := stepAgree op m l he hs hn
    simp only [replaySg, replayRef]
    rw [h1, ih (stepSg op m).2 (stepRef N op l).2 h2 h3 h4]

/-- Claim C7: replaying any finite sequence of public-surface operations
(with the fuzz harness's capacity guards) against the engine and against the
reference sorted-association-list model of BTreeMap produces identical
observation streams: return values, iterator and range yields, lengths,
emptiness, orderings, clone iteration and debug rendering all agree. -/
theorem C7_differential_equivalence {N : Nat} (ops : List (MapOp K V)) :
    (replaySg ops (SgMap.empty : SgMap K V N)).1
      = (replayRef N ops ([] : List (K × V))).1 :=
  replayAgree ops SgMap.empty [] SgMap.empty_entries List.Pairwise.nil
    (Nat.zero_le N)

/-- Claim C7 witness: a concrete six-operation session over capacity 4,
with the observation stream computed explicitly on the reference side. -/
theorem C7_differential_equivalence_witness :
    (replaySg [MapOp.insert 2 20, MapOp.insert 1 10, MapOp.get 2, MapOp.iter,
        MapOp.popFirst, MapOp.len] (SgMap.empty : SgMap Nat Nat 4)).1
      = [MapObs.optVal none, MapObs.optVal none, MapObs.optVal (some 20),
          MapObs.entryList [(1, 10), (2, 20)], MapObs.optEntry (some (1, 10)),
          MapObs.nat 1] :=
  (C7_differential_equivalence (N := 4)
    [MapOp.insert 2 20, MapOp.insert 1 10, MapOp.get 2, MapOp.iter,
      MapOp.popFirst, MapOp.len]).trans (by rfl)

end Escapegoat
